import Mathlib

/-!
# Verification of the mpf-host plugin manager and event bus

This file embeds the core algorithms of the mpf-host repository
(`src/plugin_manager.cpp`, `src/event_bus_service.cpp`) as executable Lean
definitions and proves the specification's claims about them.

Modelling conventions:
* Qt strings are Lean `String`s (sequences of characters); character-encoding
  and regex-engine newline conventions are abstracted away.
* `QHash` tables are association lists; where the C++ iterates a hash table in
  unspecified order, the model is parameterised by the iteration order and the
  properties quantify over all permutations.
* `std::function` handlers are modelled by Lean functions; a C++ exception
  raised by a handler is modelled by `Except`.
-/

namespace MpfHost

/-! ## Event bus: topic pattern compilation and matching

`EventBusService::compilePattern` escapes the pattern, rewrites each `**` to
the regex atom `.+`, each remaining `*` to `[^/]+`, and anchors the result
with `^`/`$`.  Because every non-`*` character is escaped first, the compiled
regex is equivalent to a token list: literal characters, `[^/]+` atoms (one
`*`), and `.+` atoms (two consecutive `*`, paired greedily left to right,
exactly as the textual replacement of `\*\*` proceeds).  `hasMatch` on the
anchored regex is whole-string matching of that token list. -/

/-- One atom of a compiled subscription pattern. -/
inductive PatTok : Type
  /-- a literal character of the pattern (escaped in the regex) -/
  | lit (c : Char)
  /-- a single `*`, compiled to `[^/]+`: one or more non-`/` characters -/
  | star
  /-- a `**`, compiled to `.+`: one or more characters -/
  | dstar
  deriving DecidableEq, Repr

/-- `EventBusService::compilePattern`: tokenisation of a pattern string.
Two consecutive `*` become one `.+` atom (the textual replacement of `\*\*`
is greedy and left-to-right), a lone `*` becomes `[^/]+`, and every other
character is escaped, hence literal. -/
def compilePattern : List Char → List PatTok
  | [] => []
  | '*' :: '*' :: rest => PatTok.dstar :: compilePattern rest
  | '*' :: rest => PatTok.star :: compilePattern rest
  | c :: rest => PatTok.lit c :: compilePattern rest

/-- Whole-string matching of a compiled token list against a topic, i.e. the
semantics of `regex.match(topic).hasMatch()` for the anchored regex built by
`compilePattern`.  `[^/]+` and `.+` both consume at least one character. -/
def matchToks (toks : List PatTok) (s : List Char) : Bool :=
  match s, toks with
  | [], [] => true
  | [], _ :: _ => false
  | _ :: _, [] => false
  | x :: xs, PatTok.lit c :: ts => c == x && matchToks ts xs
  | x :: xs, PatTok.star :: ts =>
      !(x == '/') && (matchToks ts xs || matchToks (PatTok.star :: ts) xs)
  | _ :: xs, PatTok.dstar :: ts =>
      matchToks ts xs || matchToks (PatTok.dstar :: ts) xs

/-- `EventBusService::matchesTopic`: compile the pattern and test the topic. -/
def matchesTopic (topic pattern : String) : Bool :=
  matchToks (compilePattern pattern.toList) topic.toList

/-! ### Characterisation lemmas for the compiled matcher -/

theorem matchToks_nil_iff (s : List Char) : matchToks [] s = true ↔ s = [] := by
  cases s <;> simp [matchToks]

theorem matchToks_cons_nil (t : PatTok) (ts : List PatTok) :
    matchToks (t :: ts) [] = false := by
  simp [matchToks]

/-- A leading `[^/]+` atom consumes a non-empty slash-free prefix. -/
theorem matchToks_star_iff (xs : List Char) (ts : List PatTok) :
    matchToks (PatTok.star :: ts) xs = true ↔
      ∃ a b, xs = a ++ b ∧ a ≠ [] ∧ (∀ c ∈ a, c ≠ '/') ∧ matchToks ts b = true := by
  induction xs with
  | nil =>
    simp only [matchToks_cons_nil, Bool.false_eq_true, false_iff]
    rintro ⟨a, b, hab, ha, -, -⟩
    exact ha (List.append_eq_nil.mp hab.symm).1
  | cons x xs ih =>
    simp only [matchToks, Bool.and_eq_true, Bool.or_eq_true, Bool.not_eq_true',
      beq_eq_false_iff_ne]
    constructor
    · rintro ⟨hx, hrest | hrest⟩
      · exact ⟨[x], xs, rfl, by simp, by simpa using hx, hrest⟩
      · obtain ⟨a, b, hab, ha, hslash, hb⟩ := ih.mp hrest
        refine ⟨x :: a, b, by simp [hab], by simp, ?_, hb⟩
        rintro c hc
        rcases List.mem_cons.mp hc with rfl | hc
        · exact hx
        · exact hslash c hc
    · rintro ⟨a, b, hab, ha, hslash, hb⟩
      rcases a with _ | ⟨a0, a'⟩
      · exact absurd rfl ha
      · simp only [List.cons_append, List.cons.injEq] at hab
        obtain ⟨rfl, rfl⟩ := hab
        refine ⟨hslash _ (by simp), ?_⟩
        rcases a' with _ | ⟨a1, a''⟩
        · exact Or.inl hb
        · exact Or.inr (ih.mpr ⟨a1 :: a'', b, rfl, by simp,
            fun c hc => hslash c (List.mem_cons_of_mem _ hc), hb⟩)

/-- A leading `.+` atom consumes an arbitrary non-empty prefix. -/
theorem matchToks_dstar_iff (xs : List Char) (ts : List PatTok) :
    matchToks (PatTok.dstar :: ts) xs = true ↔
      ∃ a b, xs = a ++ b ∧ a ≠ [] ∧ matchToks ts b = true := by
  induction xs with
  | nil =>
    simp only [matchToks_cons_nil, Bool.false_eq_true, false_iff]
    rintro ⟨a, b, hab, ha, -⟩
    exact ha (List.append_eq_nil.mp hab.symm).1
  | cons x xs ih =>
    simp only [matchToks, Bool.or_eq_true]
    constructor
    · rintro (hrest | hrest)
      · exact ⟨[x], xs, rfl, by simp, hrest⟩
      · obtain ⟨a, b, hab, ha, hb⟩ := ih.mp hrest
        exact ⟨x :: a, b, by simp [hab], by simp, hb⟩
    · rintro ⟨a, b, hab, ha, hb⟩
      rcases a with _ | ⟨a0, a'⟩
      · exact absurd rfl ha
      · simp only [List.cons_append, List.cons.injEq] at hab
        obtain ⟨rfl, rfl⟩ := hab
        rcases a' with _ | ⟨a1, a''⟩
        · exact Or.inl hb
        · exact Or.inr (ih.mpr ⟨a1 :: a'', b, rfl, by simp, hb⟩)

/-- A literal token block consumes exactly those characters. -/
theorem matchToks_lits (p : List Char) (ts : List PatTok) (xs : List Char) :
    matchToks (p.map PatTok.lit ++ ts) xs = true ↔
      ∃ b, xs = p ++ b ∧ matchToks ts b = true := by
  induction p generalizing xs with
  | nil => simp
  | cons c p ih =>
    cases xs with
    | nil =>
      simp only [List.map_cons, List.cons_append, matchToks_cons_nil,
        Bool.false_eq_true, false_iff]
      rintro ⟨b, hb, -⟩
      exact List.cons_ne_nil _ _ hb.symm
    | cons x xs =>
      simp only [List.map_cons, List.cons_append, matchToks, Bool.and_eq_true,
        beq_iff_eq]
      constructor
      · rintro ⟨hcx, hrest⟩
        obtain ⟨b, hxs, hb⟩ := (ih xs).mp hrest
        exact ⟨b, by simp [hcx, hxs], hb⟩
      · rintro ⟨b, hx, hb⟩
        simp only [List.cons_append, List.cons.injEq] at hx
        obtain ⟨rfl, rfl⟩ := hx
        exact ⟨rfl, (ih _).mpr ⟨b, rfl, hb⟩⟩

/-- A pure-literal token list matches exactly the literal string. -/
theorem matchToks_lits_only (p xs : List Char) :
    matchToks (p.map PatTok.lit) xs = true ↔ xs = p := by
  have h := matchToks_lits p [] xs
  simp only [List.append_nil, matchToks_nil_iff] at h
  rw [h]
  constructor
  · rintro ⟨b, rfl, rfl⟩; simp
  · rintro rfl; exact ⟨[], by simp⟩

theorem compilePattern_cons_of_ne (c : Char) (hc : c ≠ '*') (rest : List Char) :
    compilePattern (c :: rest) = PatTok.lit c :: compilePattern rest := by
  rw [compilePattern.eq_def]
  split
  · simp_all
  · simp_all
  · simp_all
  · simp_all

/-- A star-free pattern compiles to its literal tokens. -/
theorem compilePattern_noStar (p : List Char) (hp : '*' ∉ p) :
    compilePattern p = p.map PatTok.lit := by
  induction p with
  | nil => rfl
  | cons c p ih =>
    have hc : c ≠ '*' := by rintro rfl; exact hp (List.mem_cons_self _ _)
    have hp' : '*' ∉ p := fun h => hp (List.mem_cons_of_mem c h)
    rw [compilePattern_cons_of_ne c hc p, ih hp']
    rfl

theorem matchToks_single_star (b : List Char) :
    matchToks [PatTok.star] b = true ↔ b ≠ [] ∧ ∀ c ∈ b, c ≠ '/' := by
  rw [matchToks_star_iff]
  constructor
  · rintro ⟨a, b', rfl, ha, hslash, hb'⟩
    rw [matchToks_nil_iff] at hb'
    subst hb'
    simpa using ⟨ha, hslash⟩
  · rintro ⟨hb, hslash⟩
    exact ⟨b, [], by simp, hb, hslash, rfl⟩

theorem matchToks_single_dstar (b : List Char) :
    matchToks [PatTok.dstar] b = true ↔ b ≠ [] := by
  rw [matchToks_dstar_iff]
  constructor
  · rintro ⟨a, b', rfl, ha, hb'⟩
    rw [matchToks_nil_iff] at hb'
    subst hb'
    simpa using ha
  · rintro hb
    exact ⟨b, [], by simp, hb, rfl⟩

theorem toList_mk (l : List Char) : (String.mk l).toList = l := rfl

/-- C3: the pattern matcher is anchored over `/`-separated segments: `*`
matches exactly one non-empty segment (a non-empty slash-free remainder),
`**` matches one or more trailing segments (any non-empty remainder), all
other characters match literally, and in particular `orders/*` matches
`orders/created` but neither `orders/items/added` nor `orders`, while
`orders/**` matches `orders/created` and `orders/items/added` but not
`orders`. -/
theorem pattern_matcher_segment_semantics :
    (∀ t : String, matchesTopic t "orders/*" = true ↔
       ∃ s : String, t = "orders/" ++ s ∧ s ≠ "" ∧ ∀ c ∈ s.toList, c ≠ '/') ∧
    (∀ t : String, matchesTopic t "orders/**" = true ↔
       ∃ s : String, t = "orders/" ++ s ∧ s ≠ "") ∧
    (∀ p t : String, '*' ∉ p.toList → (matchesTopic t p = true ↔ t = p)) ∧
    matchesTopic "orders/created" "orders/*" = true ∧
    matchesTopic "orders/items/added" "orders/*" = false ∧
    matchesTopic "orders" "orders/*" = false ∧
    matchesTopic "orders/created" "orders/**" = true ∧
    matchesTopic "orders/items/added" "orders/**" = true ∧
    matchesTopic "orders" "orders/**" = false := by
  refine ⟨?_, ?_, ?_, by decide, by decide, by decide, by decide, by decide, by decide⟩
  · intro t
    have hpat : compilePattern "orders/*".toList =
        "orders/".toList.map PatTok.lit ++ [PatTok.star] := rfl
    rw [matchesTopic, hpat, matchToks_lits]
    constructor
    · rintro ⟨b, hb, hstar⟩
      rw [matchToks_single_star] at hstar
      refine ⟨String.mk b, String.ext ?_, ?_, by simpa using hstar.2⟩
      · simpa using hb
      · intro h
        exact hstar.1 (by simpa using congrArg String.toList h)
    · rintro ⟨s, rfl, hs, hslash⟩
      refine ⟨s.toList, rfl, ?_⟩
      rw [matchToks_single_star]
      exact ⟨fun h => hs (String.ext (by simpa using h)), hslash⟩
  · intro t
    have hpat : compilePattern "orders/**".toList =
        "orders/".toList.map PatTok.lit ++ [PatTok.dstar] := rfl
    rw [matchesTopic, hpat, matchToks_lits]
    constructor
    · rintro ⟨b, hb, hstar⟩
      rw [matchToks_single_dstar] at hstar
      refine ⟨String.mk b, String.ext ?_, ?_⟩
      · simpa using hb
      · intro h
        exact hstar (by simpa using congrArg String.toList h)
    · rintro ⟨s, rfl, hs⟩
      refine ⟨s.toList, rfl, ?_⟩
      rw [matchToks_single_dstar]
      exact fun h => hs (String.ext (by simpa using h))
  · intro p t hp
    rw [matchesTopic, compilePattern_noStar p.toList hp, matchToks_lits_only]
    exact ⟨fun h => String.ext h, fun h => congrArg String.toList h⟩

/-- Witness for `pattern_matcher_segment_semantics`: the literal-pattern
clause instantiated at a concrete star-free pattern. -/
theorem pattern_matcher_segment_semantics_witness :
    matchesTopic "orders" "orders" = true :=
  (pattern_matcher_segment_semantics.2.2.1 "orders" "orders" (by decide)).mpr rfl

/-! ## Association-list helpers

`QHash` tables are modelled as association lists with unique keys; a lookup
returns the first binding. -/

/-- First-binding lookup (`QHash::value` / `find`). -/
def alookup {κ : Type} [DecidableEq κ] {β : Type} (k : κ) : List (κ × β) → Option β
  | [] => none
  | (k', v) :: rest => if k' = k then some v else alookup k rest

/-- Remove the binding of a key (`QHash::remove` / `erase`); with unique keys
this removes exactly the key's binding. -/
def aerase {κ : Type} [DecidableEq κ] {β : Type} (k : κ) : List (κ × β) → List (κ × β)
  | [] => []
  | (k', v) :: rest => if k' = k then rest else (k', v) :: aerase k rest

/-- `index[k].append(v)` on a `QHash<κ, QList β>`: `operator[]`
default-constructs an empty list for a missing key. -/
def idxAppend {κ : Type} [DecidableEq κ] {β : Type}
    (idx : List (κ × List β)) (k : κ) (v : β) : List (κ × List β) :=
  match idx with
  | [] => [(k, [v])]
  | (k', vs) :: rest =>
      if k' = k then (k', vs ++ [v]) :: rest else (k', vs) :: idxAppend rest k v

/-- `QList::removeAll(v)`: drop every occurrence of a value. -/
def removeAllVal {β : Type} [DecidableEq β] (v : β) (vs : List β) : List β :=
  vs.filter (fun x => x ≠ v)

/-- `index[k].removeAll(v); if (index[k].isEmpty()) index.remove(k);` -/
def idxRemoveVal {κ : Type} [DecidableEq κ] {β : Type} [DecidableEq β]
    (idx : List (κ × List β)) (k : κ) (v : β) : List (κ × List β) :=
  match idx with
  | [] => []
  | (k', vs) :: rest =>
      if k' = k then
        if removeAllVal v vs = [] then rest else (k', removeAllVal v vs) :: rest
      else (k', vs) :: idxRemoveVal rest k v

theorem alookup_nil {κ : Type} [DecidableEq κ] {β : Type} (k : κ) :
    alookup k ([] : List (κ × β)) = none := rfl

theorem alookup_cons_self {κ : Type} [DecidableEq κ] {β : Type} (k : κ) (v : β)
    (rest : List (κ × β)) : alookup k ((k, v) :: rest) = some v := by
  simp [alookup]

theorem alookup_cons_ne {κ : Type} [DecidableEq κ] {β : Type} {k k' : κ}
    (h : k' ≠ k) (v : β) (rest : List (κ × β)) :
    alookup k ((k', v) :: rest) = alookup k rest := by
  simp [alookup, h]

theorem idxAppend_cons_self {κ : Type} [DecidableEq κ] {β : Type} (k : κ)
    (vs : List β) (rest : List (κ × List β)) (v : β) :
    idxAppend ((k, vs) :: rest) k v = (k, vs ++ [v]) :: rest := by
  simp [idxAppend]

theorem idxAppend_cons_ne {κ : Type} [DecidableEq κ] {β : Type} {k k' : κ}
    (h : k' ≠ k) (vs : List β) (rest : List (κ × List β)) (v : β) :
    idxAppend ((k', vs) :: rest) k v = (k', vs) :: idxAppend rest k v := by
  simp [idxAppend, h]

theorem idxRemoveVal_cons_self {κ : Type} [DecidableEq κ] {β : Type}
    [DecidableEq β] (k : κ) (vs : List β) (rest : List (κ × List β)) (v : β) :
    idxRemoveVal ((k, vs) :: rest) k v =
      if removeAllVal v vs = [] then rest
      else (k, removeAllVal v vs) :: rest := by
  simp [idxRemoveVal]

theorem idxRemoveVal_cons_ne {κ : Type} [DecidableEq κ] {β : Type}
    [DecidableEq β] {k k' : κ} (h : k' ≠ k) (vs : List β)
    (rest : List (κ × List β)) (v : β) :
    idxRemoveVal ((k', vs) :: rest) k v = (k', vs) :: idxRemoveVal rest k v := by
  simp [idxRemoveVal, h]

theorem alookup_eq_none_iff {κ : Type} [DecidableEq κ] {β : Type} (k : κ)
    (l : List (κ × β)) : alookup k l = none ↔ k ∉ l.map Prod.fst := by
  induction l with
  | nil => simp [alookup]
  | cons p rest ih =>
    obtain ⟨k', v⟩ := p
    by_cases h : k' = k
    · subst h
      simp [alookup]
    · simp only [alookup, if_neg h, ih, List.map_cons, List.mem_cons]
      constructor
      · intro hk hmem
        rcases hmem with rfl | hm
        · exact h rfl
        · exact hk hm
      · intro hk hm
        exact hk (Or.inr hm)

theorem alookup_isSome_of_mem {κ : Type} [DecidableEq κ] {β : Type} {k : κ}
    {l : List (κ × β)} (h : k ∈ l.map Prod.fst) : (alookup k l).isSome := by
  rcases ho : alookup k l with - | v
  · exact absurd h ((alookup_eq_none_iff k l).mp ho)
  · rfl

theorem mem_keys_of_alookup_some {κ : Type} [DecidableEq κ] {β : Type} {k : κ}
    {l : List (κ × β)} {v : β} (h : alookup k l = some v) : k ∈ l.map Prod.fst := by
  by_contra hk
  rw [(alookup_eq_none_iff k l).mpr hk] at h
  exact Option.noConfusion h

theorem mem_of_alookup_some {κ : Type} [DecidableEq κ] {β : Type} {k : κ}
    {l : List (κ × β)} {v : β} (h : alookup k l = some v) : (k, v) ∈ l := by
  induction l with
  | nil => exact absurd h (by simp [alookup])
  | cons p rest ih =>
    obtain ⟨k', w⟩ := p
    by_cases hk : k' = k
    · subst hk
      rw [alookup_cons_self] at h
      obtain rfl : w = v := Option.some_injective _ h
      exact List.mem_cons_self _ _
    · rw [alookup_cons_ne hk] at h
      exact List.mem_cons_of_mem _ (ih h)

theorem alookup_append {κ : Type} [DecidableEq κ] {β : Type} (k : κ)
    (l l' : List (κ × β)) :
    alookup k (l ++ l') =
      match alookup k l with
      | some v => some v
      | none => alookup k l' := by
  induction l with
  | nil => simp [alookup]
  | cons p rest ih =>
    obtain ⟨k', v⟩ := p
    by_cases h : k' = k <;> simp [alookup, h, ih]

theorem alookup_of_forall_lt {β : Type} (n : Nat) (l : List (Nat × β))
    (h : ∀ p ∈ l, p.1 < n) : alookup n l = none := by
  rw [alookup_eq_none_iff]
  intro hn
  obtain ⟨p, hp, hfst⟩ := List.mem_map.mp hn
  exact absurd (hfst ▸ h p hp) (lt_irrefl n)

theorem aerase_sublist {κ : Type} [DecidableEq κ] {β : Type} (k : κ)
    (l : List (κ × β)) : (aerase k l).Sublist l := by
  induction l with
  | nil => simp [aerase]
  | cons p rest ih =>
    obtain ⟨k', v⟩ := p
    by_cases h : k' = k <;> simp [aerase, h]
    exact ih

theorem aerase_keys_sublist {κ : Type} [DecidableEq κ] {β : Type} (k : κ)
    (l : List (κ × β)) : ((aerase k l).map Prod.fst).Sublist (l.map Prod.fst) :=
  (aerase_sublist k l).map Prod.fst

theorem alookup_aerase_self {κ : Type} [DecidableEq κ] {β : Type} (k : κ)
    (l : List (κ × β)) (hnd : (l.map Prod.fst).Nodup) :
    alookup k (aerase k l) = none := by
  induction l with
  | nil => rfl
  | cons p rest ih =>
    obtain ⟨k', v⟩ := p
    simp only [List.map_cons, List.nodup_cons] at hnd
    by_cases h : k' = k
    · subst h
      rw [alookup_eq_none_iff]
      simp only [aerase, if_pos rfl]
      exact hnd.1
    · simp only [aerase, if_neg h, alookup, if_neg h]
      exact ih hnd.2

theorem alookup_aerase_ne {κ : Type} [DecidableEq κ] {β : Type} {k k' : κ}
    (hne : k' ≠ k) (l : List (κ × β)) :
    alookup k' (aerase k l) = alookup k' l := by
  induction l with
  | nil => rfl
  | cons p rest ih =>
    obtain ⟨k0, v⟩ := p
    by_cases h : k0 = k
    · subst h
      simp [aerase, alookup, Ne.symm hne]
    · simp [aerase, if_neg h, alookup, ih]

theorem length_aerase_of_some {κ : Type} [DecidableEq κ] {β : Type} {k : κ}
    {l : List (κ × β)} {v : β} (h : alookup k l = some v) :
    (aerase k l).length + 1 = l.length := by
  induction l with
  | nil => exact absurd h (by simp [alookup])
  | cons p rest ih =>
    obtain ⟨k', w⟩ := p
    by_cases hk : k' = k
    · simp [aerase, hk]
    · simp only [alookup, if_neg hk] at h
      simp [aerase, hk, ih h]

/-- Total length of the value lists of a subscriber/handler index. -/
def idxSum {κ : Type} {β : Type} (idx : List (κ × List β)) : Nat :=
  (idx.map (fun p => p.2.length)).sum

theorem alookup_idxAppend_self {κ : Type} [DecidableEq κ] {β : Type}
    (idx : List (κ × List β)) (k : κ) (v : β) :
    alookup k (idxAppend idx k v) = some ((alookup k idx).getD [] ++ [v]) := by
  induction idx with
  | nil => simp [idxAppend, alookup]
  | cons p rest ih =>
    obtain ⟨k', vs⟩ := p
    by_cases h : k' = k
    · subst h
      simp [idxAppend, alookup]
    · simp [idxAppend, h, alookup, ih]

theorem alookup_idxAppend_ne {κ : Type} [DecidableEq κ] {β : Type} {k k' : κ}
    (hne : k' ≠ k) (idx : List (κ × List β)) (v : β) :
    alookup k' (idxAppend idx k v) = alookup k' idx := by
  induction idx with
  | nil => simp [idxAppend, alookup, Ne.symm hne]
  | cons p rest ih =>
    obtain ⟨k0, vs⟩ := p
    by_cases h : k0 = k
    · subst h
      simp [idxAppend, alookup, Ne.symm hne]
    · simp [idxAppend, h, alookup, ih]

theorem idxAppend_keys {κ : Type} [DecidableEq κ] {β : Type}
    (idx : List (κ × List β)) (k : κ) (v : β) :
    (idxAppend idx k v).map Prod.fst = idx.map Prod.fst ∨
      (idxAppend idx k v).map Prod.fst = idx.map Prod.fst ++ [k] := by
  induction idx with
  | nil => simp [idxAppend]
  | cons p rest ih =>
    obtain ⟨k', vs⟩ := p
    by_cases h : k' = k
    · subst h
      simp [idxAppend]
    · rcases ih with ih | ih <;> simp [idxAppend, h, ih]

theorem idxAppend_keys_nodup {κ : Type} [DecidableEq κ] {β : Type}
    {idx : List (κ × List β)} (hnd : (idx.map Prod.fst).Nodup) (k : κ) (v : β) :
    ((idxAppend idx k v).map Prod.fst).Nodup := by
  induction idx with
  | nil => simp [idxAppend]
  | cons p rest ih =>
    obtain ⟨k', vs⟩ := p
    simp only [List.map_cons, List.nodup_cons] at hnd
    by_cases h : k' = k
    · subst h
      rw [idxAppend_cons_self, List.map_cons, List.nodup_cons]
      exact ⟨hnd.1, hnd.2⟩
    · rw [idxAppend_cons_ne h, List.map_cons, List.nodup_cons]
      refine ⟨?_, ih hnd.2⟩
      intro hmem
      rcases idxAppend_keys rest k v with hkeys | hkeys
      · exact hnd.1 (hkeys ▸ hmem)
      · rw [hkeys, List.mem_append] at hmem
        rcases hmem with hm | hm
        · exact hnd.1 hm
        · exact h (List.mem_singleton.mp hm)

theorem idxAppend_entries {κ : Type} [DecidableEq κ] {β : Type}
    (idx : List (κ × List β)) (k : κ) (v : β) (P : List β → Prop)
    (hidx : ∀ p ∈ idx, P p.2)
    (hnew : ∀ vs, P vs → alookup k idx = some vs → P (vs ++ [v]))
    (hbase : alookup k idx = none → P [v]) :
    ∀ p ∈ idxAppend idx k v, P p.2 := by
  induction idx with
  | nil =>
    intro p hp
    simp only [idxAppend, List.mem_singleton] at hp
    subst hp
    exact hbase rfl
  | cons q rest ih =>
    obtain ⟨k', vs⟩ := q
    intro p hp
    by_cases h : k' = k
    · subst h
      simp only [idxAppend, if_pos rfl] at hp
      cases hp with
      | head =>
        exact hnew vs (hidx _ (List.mem_cons_self _ _)) (alookup_cons_self _ _ _)
      | tail b hp => exact hidx p (List.mem_cons_of_mem _ hp)
    · simp only [idxAppend, if_neg h] at hp
      cases hp with
      | head => exact hidx _ (List.mem_cons_self _ _)
      | tail b hp =>
        refine ih (fun q hq => hidx q (List.mem_cons_of_mem _ hq)) ?_ ?_ p hp
        · intro vs' hvs' hlk
          exact hnew vs' hvs' (by rw [alookup_cons_ne h]; exact hlk)
        · intro hlk
          exact hbase (by rw [alookup_cons_ne h]; exact hlk)

theorem idxSum_idxAppend {κ : Type} [DecidableEq κ] {β : Type}
    (idx : List (κ × List β)) (k : κ) (v : β) :
    idxSum (idxAppend idx k v) = idxSum idx + 1 := by
  induction idx with
  | nil => simp [idxAppend, idxSum]
  | cons p rest ih =>
    obtain ⟨k', vs⟩ := p
    by_cases h : k' = k
    · subst h
      simp [idxAppend, idxSum]
      omega
    · simp only [idxAppend, if_neg h, idxSum, List.map_cons, List.sum_cons] at *
      omega

theorem mem_removeAllVal {β : Type} [DecidableEq β] {x v : β} {vs : List β} :
    x ∈ removeAllVal v vs ↔ x ∈ vs ∧ x ≠ v := by
  simp [removeAllVal]

theorem nodup_removeAllVal {β : Type} [DecidableEq β] {vs : List β}
    (hnd : vs.Nodup) (v : β) : (removeAllVal v vs).Nodup :=
  hnd.filter _

theorem removeAllVal_cons_self {β : Type} [DecidableEq β] (v : β)
    (rest : List β) : removeAllVal v (v :: rest) = removeAllVal v rest := by
  simp [removeAllVal, List.filter_cons]

theorem removeAllVal_cons_ne {β : Type} [DecidableEq β] {w v : β}
    (hwv : w ≠ v) (rest : List β) :
    removeAllVal v (w :: rest) = w :: removeAllVal v rest := by
  simp [removeAllVal, List.filter_cons, hwv]

theorem removeAllVal_of_not_mem {β : Type} [DecidableEq β] {v : β}
    {vs : List β} (hv : v ∉ vs) : removeAllVal v vs = vs := by
  refine List.filter_eq_self.mpr (fun x hx => ?_)
  simp only [ne_eq, decide_eq_true_eq]
  rintro rfl
  exact hv hx

theorem length_removeAllVal {β : Type} [DecidableEq β] {vs : List β}
    (hnd : vs.Nodup) {v : β} (hv : v ∈ vs) :
    (removeAllVal v vs).length + 1 = vs.length := by
  induction vs with
  | nil => simp at hv
  | cons w rest ih =>
    simp only [List.nodup_cons] at hnd
    by_cases hwv : w = v
    · subst hwv
      rw [removeAllVal_cons_self, removeAllVal_of_not_mem hnd.1]
      rfl
    · have hv' : v ∈ rest := by
        rcases List.mem_cons.mp hv with h | h
        · exact absurd h.symm hwv
        · exact h
      rw [removeAllVal_cons_ne hwv, List.length_cons, List.length_cons,
        ← ih hnd.2 hv']

theorem alookup_idxRemoveVal_self {κ : Type} [DecidableEq κ] {β : Type}
    [DecidableEq β] {idx : List (κ × List β)} (hnd : (idx.map Prod.fst).Nodup)
    (k : κ) (v : β) :
    alookup k (idxRemoveVal idx k v) =
      (if removeAllVal v ((alookup k idx).getD []) = []
       then none
       else some (removeAllVal v ((alookup k idx).getD []))) := by
  induction idx with
  | nil => simp [idxRemoveVal, alookup, removeAllVal]
  | cons p rest ih =>
    obtain ⟨k', vs⟩ := p
    simp only [List.map_cons, List.nodup_cons] at hnd
    by_cases h : k' = k
    · subst h
      rw [idxRemoveVal_cons_self, alookup_cons_self, Option.getD_some]
      by_cases hemp : removeAllVal v vs = []
      · rw [if_pos hemp, if_pos hemp, alookup_eq_none_iff]
        exact hnd.1
      · rw [if_neg hemp, if_neg hemp, alookup_cons_self]
    · rw [idxRemoveVal_cons_ne h, alookup_cons_ne h]
      rw [alookup_cons_ne h]
      exact ih hnd.2

theorem alookup_idxRemoveVal_ne {κ : Type} [DecidableEq κ] {β : Type}
    [DecidableEq β] {k k' : κ} (hne : k' ≠ k) (idx : List (κ × List β)) (v : β) :
    alookup k' (idxRemoveVal idx k v) = alookup k' idx := by
  induction idx with
  | nil => rfl
  | cons p rest ih =>
    obtain ⟨k0, vs⟩ := p
    by_cases h : k0 = k
    · subst h
      rw [idxRemoveVal_cons_self, alookup_cons_ne (Ne.symm hne)]
      by_cases hemp : removeAllVal v vs = []
      · rw [if_pos hemp]
      · rw [if_neg hemp, alookup_cons_ne (Ne.symm hne)]
    · rw [idxRemoveVal_cons_ne h]
      by_cases h' : k0 = k'
      · subst h'
        rw [alookup_cons_self, alookup_cons_self]
      · rw [alookup_cons_ne h', alookup_cons_ne h', ih]

theorem idxRemoveVal_keys_sublist {κ : Type} [DecidableEq κ] {β : Type}
    [DecidableEq β] (idx : List (κ × List β)) (k : κ) (v : β) :
    ((idxRemoveVal idx k v).map Prod.fst).Sublist (idx.map Prod.fst) := by
  induction idx with
  | nil => simp [idxRemoveVal]
  | cons p rest ih =>
    obtain ⟨k', vs⟩ := p
    by_cases h : k' = k
    · subst h
      rw [idxRemoveVal_cons_self]
      by_cases hemp : removeAllVal v vs = []
      · rw [if_pos hemp, List.map_cons]
        exact (List.Sublist.refl _).cons _
      · rw [if_neg hemp, List.map_cons, List.map_cons]
    · rw [idxRemoveVal_cons_ne h, List.map_cons, List.map_cons]
      exact ih.cons₂ _

theorem idxRemoveVal_entries {κ : Type} [DecidableEq κ] {β : Type}
    [DecidableEq β] (idx : List (κ × List β)) (k : κ) (v : β)
    (P : List β → Prop) (hidx : ∀ p ∈ idx, P p.2)
    (hfil : ∀ vs, P vs → removeAllVal v vs ≠ [] → P (removeAllVal v vs)) :
    ∀ p ∈ idxRemoveVal idx k v, P p.2 := by
  induction idx with
  | nil => intro p hp; simp [idxRemoveVal] at hp
  | cons q rest ih =>
    obtain ⟨k', vs⟩ := q
    intro p hp
    by_cases h : k' = k
    · subst h
      rw [idxRemoveVal_cons_self] at hp
      by_cases hemp : removeAllVal v vs = []
      · rw [if_pos hemp] at hp
        exact hidx p (List.mem_cons_of_mem _ hp)
      · rw [if_neg hemp] at hp
        rcases List.mem_cons.mp hp with hp | hp
        · rw [hp]
          exact hfil vs (hidx _ (List.mem_cons_self _ _)) hemp
        · exact hidx p (List.mem_cons_of_mem _ hp)
    · rw [idxRemoveVal_cons_ne h] at hp
      rcases List.mem_cons.mp hp with hp | hp
      · rw [hp]
        exact hidx _ (List.mem_cons_self _ _)
      · exact ih (fun q hq => hidx q (List.mem_cons_of_mem _ hq)) p hp

theorem idxSum_idxRemoveVal {κ : Type} [DecidableEq κ] {β : Type}
    [DecidableEq β] {idx : List (κ × List β)} (hnd : (idx.map Prod.fst).Nodup)
    (hvnd : ∀ p ∈ idx, p.2.Nodup) {k : κ} {v : β}
    (hv : v ∈ (alookup k idx).getD []) :
    idxSum (idxRemoveVal idx k v) + 1 = idxSum idx := by
  induction idx with
  | nil => simp [alookup] at hv
  | cons p rest ih =>
    obtain ⟨k', vs⟩ := p
    simp only [List.map_cons, List.nodup_cons] at hnd
    by_cases h : k' = k
    · subst h
      rw [alookup_cons_self, Option.getD_some] at hv
      have hlen : (removeAllVal v vs).length + 1 = vs.length :=
        length_removeAllVal (hvnd _ (List.mem_cons_self _ _)) hv
      rw [idxRemoveVal_cons_self]
      by_cases hemp : removeAllVal v vs = []
      · rw [if_pos hemp]
        rw [hemp] at hlen
        simp only [List.length_nil] at hlen
        simp only [idxSum, List.map_cons, List.sum_cons]
        omega
      · rw [if_neg hemp]
        simp only [idxSum, List.map_cons, List.sum_cons]
        omega
    · rw [alookup_cons_ne h] at hv
      have hrec := ih hnd.2 (fun q hq => hvnd q (List.mem_cons_of_mem _ hq)) hv
      rw [idxRemoveVal_cons_ne h]
      simp only [idxSum, List.map_cons, List.sum_cons] at hrec ⊢
      omega

theorem idxSum_aerase {κ : Type} [DecidableEq κ] {β : Type}
    {idx : List (κ × List β)} (hnd : (idx.map Prod.fst).Nodup) (k : κ) :
    idxSum (aerase k idx) + ((alookup k idx).getD []).length = idxSum idx := by
  induction idx with
  | nil => simp [aerase, alookup, idxSum]
  | cons p rest ih =>
    obtain ⟨k', vs⟩ := p
    simp only [List.map_cons, List.nodup_cons] at hnd
    by_cases h : k' = k
    · subst h
      rw [alookup_cons_self]
      have : aerase k' ((k', vs) :: rest) = rest := by simp [aerase]
      rw [this]
      simp only [Option.getD_some, idxSum, List.map_cons, List.sum_cons]
      omega
    · rw [alookup_cons_ne h]
      have : aerase k ((k', vs) :: rest) = (k', vs) :: aerase k rest := by
        simp [aerase, h]
      rw [this]
      have hrec := ih hnd.2
      simp only [idxSum, List.map_cons, List.sum_cons] at hrec ⊢
      omega

/-- Erase a list of keys one after the other (the loop body of
`unsubscribeAll` / `unregisterAllHandlers`). -/
def eraseMany {κ : Type} [DecidableEq κ] {β : Type} (ks : List κ)
    (l : List (κ × β)) : List (κ × β) :=
  ks.foldl (fun acc k => aerase k acc) l

theorem eraseMany_nil {κ : Type} [DecidableEq κ] {β : Type}
    (l : List (κ × β)) : eraseMany [] l = l := rfl

theorem eraseMany_cons {κ : Type} [DecidableEq κ] {β : Type} (k : κ)
    (ks : List κ) (l : List (κ × β)) :
    eraseMany (k :: ks) l = eraseMany ks (aerase k l) := rfl

theorem eraseMany_sublist {κ : Type} [DecidableEq κ] {β : Type} (ks : List κ)
    (l : List (κ × β)) : (eraseMany ks l).Sublist l := by
  induction ks generalizing l with
  | nil => exact List.Sublist.refl l
  | cons k ks ih =>
    rw [eraseMany_cons]
    exact (ih (aerase k l)).trans (aerase_sublist k l)

theorem eraseMany_keys_nodup {κ : Type} [DecidableEq κ] {β : Type}
    {ks : List κ} {l : List (κ × β)} (hnd : (l.map Prod.fst).Nodup) :
    ((eraseMany ks l).map Prod.fst).Nodup :=
  List.Nodup.sublist ((eraseMany_sublist ks l).map Prod.fst) hnd

theorem alookup_eraseMany_of_not_mem {κ : Type} [DecidableEq κ] {β : Type}
    {k : κ} {ks : List κ} (hk : k ∉ ks) (l : List (κ × β)) :
    alookup k (eraseMany ks l) = alookup k l := by
  induction ks generalizing l with
  | nil => rfl
  | cons k0 ks ih =>
    rw [eraseMany_cons, ih (fun h => hk (List.mem_cons_of_mem _ h)),
      alookup_aerase_ne (fun h : k = k0 => hk (h ▸ List.mem_cons_self k0 ks))]

theorem alookup_eraseMany_of_mem {κ : Type} [DecidableEq κ] {β : Type}
    {k : κ} {ks : List κ} (hk : k ∈ ks) {l : List (κ × β)}
    (hnd : (l.map Prod.fst).Nodup) : alookup k (eraseMany ks l) = none := by
  induction ks generalizing l with
  | nil => simp at hk
  | cons k0 ks ih =>
    rw [eraseMany_cons]
    by_cases hkk : k = k0
    · subst hkk
      by_cases hmem : k ∈ ks
      · exact ih hmem (List.Nodup.sublist (aerase_keys_sublist k l) hnd)
      · rw [alookup_eraseMany_of_not_mem hmem, alookup_aerase_self k l hnd]
    · rcases List.mem_cons.mp hk with h | h
      · exact absurd h hkk
      · exact ih h (List.Nodup.sublist (aerase_keys_sublist k0 l) hnd)

theorem length_eraseMany {κ : Type} [DecidableEq κ] {β : Type} {ks : List κ}
    {l : List (κ × β)} (hnd : (l.map Prod.fst).Nodup) (hknd : ks.Nodup)
    (hks : ∀ k ∈ ks, k ∈ l.map Prod.fst) :
    (eraseMany ks l).length + ks.length = l.length := by
  induction ks generalizing l with
  | nil => simp [eraseMany_nil]
  | cons k0 ks ih =>
    simp only [List.nodup_cons] at hknd
    rw [eraseMany_cons]
    obtain ⟨v, hv⟩ := Option.isSome_iff_exists.mp
      (alookup_isSome_of_mem (hks k0 (List.mem_cons_self _ _)))
    have hlen := length_aerase_of_some hv
    have hnd' : ((aerase k0 l).map Prod.fst).Nodup :=
      List.Nodup.sublist (aerase_keys_sublist k0 l) hnd
    have hks' : ∀ k ∈ ks, k ∈ (aerase k0 l).map Prod.fst := by
      intro k hkmem
      have hne : k ≠ k0 := fun h => hknd.1 (h ▸ hkmem)
      have := hks k (List.mem_cons_of_mem _ hkmem)
      rcases ho : alookup k (aerase k0 l) with - | w
      · rw [alookup_aerase_ne hne] at ho
        exact absurd this ((alookup_eq_none_iff k l).mp ho)
      · exact mem_keys_of_alookup_some ho
    have := ih hnd' hknd.2 hks'
    simp only [List.length_cons]
    omega

/-! ## Event bus: state, subscriptions, delivery, request/response

`EventBusService` state (header lines 114-119): `m_subscriptions` maps a
generated subscription id to the subscription, `m_subscriberIndex` maps a
subscriber id to its subscription ids, `m_requestHandlers` maps a topic to
its unique handler entry and `m_handlerIndex` maps a handler id to its
topics.  Subscription ids come from `QUuid::createUuid`, which yields a
fresh id on every call; the model generates them from a counter. -/

/-- `SubscriptionOptions` (from `ieventbus.h`, as used by the service). -/
structure SubscriptionOptions where
  priority : Int
  async : Bool
  receiveOwnEvents : Bool
  deriving DecidableEq, Repr

/-- A stored subscription (`EventBusService::Subscription`).  The compiled
regex field is determined by `pattern`; the handler is identified by the
subscription itself. -/
structure Subscription where
  id : Nat
  pattern : String
  subscriberId : String
  options : SubscriptionOptions
  deriving DecidableEq, Repr

/-- An event (`Event` in `ieventbus.h`): data values are opaque strings. -/
structure Event where
  topic : String
  senderId : String
  data : List (String × String)
  timestamp : Nat
  deriving DecidableEq, Repr

/-- The subscription-side state of the bus. -/
structure SubsState where
  subscriptions : List (Nat × Subscription)
  subscriberIndex : List (String × List Nat)
  nextId : Nat

/-- `EventBusService::subscribe`: a null handler is rejected without
registering anything (modelled by `hasHandler = false`); otherwise a fresh
id is generated, the subscription is stored and indexed under its
subscriber. -/
def subscribe (st : SubsState) (pattern subscriberId : String)
    (hasHandler : Bool) (options : SubscriptionOptions) :
    Option Nat × SubsState :=
  if !hasHandler then (none, st)
  else
    let sub : Subscription := ⟨st.nextId, pattern, subscriberId, options⟩
    (some st.nextId,
      { subscriptions := st.subscriptions ++ [(st.nextId, sub)],
        subscriberIndex := idxAppend st.subscriberIndex subscriberId st.nextId,
        nextId := st.nextId + 1 })

/-- `EventBusService::unsubscribe`: remove one subscription by id, drop it
from its subscriber's index list and drop the index entry if it became
empty; `false` if the id is unknown. -/
def unsubscribe (st : SubsState) (subscriptionId : Nat) : Bool × SubsState :=
  match alookup subscriptionId st.subscriptions with
  | none => (false, st)
  | some sub =>
      (true,
        { subscriptions := aerase subscriptionId st.subscriptions,
          subscriberIndex :=
            idxRemoveVal st.subscriberIndex sub.subscriberId subscriptionId,
          nextId := st.nextId })

/-- `EventBusService::unsubscribeAll`: take the subscriber's id list out of
the index and remove each of those subscriptions. -/
def unsubscribeAll (st : SubsState) (subscriberId : String) : SubsState :=
  let ids := (alookup subscriberId st.subscriberIndex).getD []
  { subscriptions := eraseMany ids st.subscriptions,
    subscriberIndex := aerase subscriberId st.subscriberIndex,
    nextId := st.nextId }

/-- `EventBusService::subscriptionsFor`. -/
def subscriptionsFor (st : SubsState) (subscriberId : String) : List Nat :=
  (alookup subscriberId st.subscriberIndex).getD []

/-- `EventBusService::totalSubscribers` returns `m_subscriptions.size()`. -/
def totalSubscribers (st : SubsState) : Nat :=
  st.subscriptions.length

/-- The mutual-consistency invariant of the subscription table and the
subscriber index. -/
structure SubsInv (st : SubsState) : Prop where
  keysNodup : (st.subscriptions.map Prod.fst).Nodup
  idxKeysNodup : (st.subscriberIndex.map Prod.fst).Nodup
  idxNonempty : ∀ p ∈ st.subscriberIndex, p.2 ≠ []
  idxValsNodup : ∀ p ∈ st.subscriberIndex, p.2.Nodup
  mem_iff : ∀ sid i, i ∈ (alookup sid st.subscriberIndex).getD [] ↔
    ∃ sub, alookup i st.subscriptions = some sub ∧ sub.subscriberId = sid
  bound : ∀ p ∈ st.subscriptions, p.1 < st.nextId
  count_eq : st.subscriptions.length = idxSum st.subscriberIndex

/-- The empty bus satisfies the invariant. -/
theorem subsInv_empty : SubsInv ⟨[], [], 0⟩ := by
  refine ⟨List.nodup_nil, List.nodup_nil, ?_, ?_, ?_, ?_, rfl⟩
  · intro p hp; simp at hp
  · intro p hp; simp at hp
  · intro sid i
    simp [alookup]
  · intro p hp; simp at hp

theorem subscribe_inv {st : SubsState} (inv : SubsInv st)
    (pattern sid : String) (hasHandler : Bool) (opts : SubscriptionOptions) :
    SubsInv (subscribe st pattern sid hasHandler opts).2 := by
  cases hasHandler with
  | false => exact inv
  | true =>
    obtain ⟨subs, idx, n⟩ := st
    obtain ⟨hknd, hiknd, hine, hivnd, hmem, hbnd, hcnt⟩ := inv
    simp only at hknd hiknd hine hivnd hmem hbnd hcnt
    show SubsInv
      { subscriptions := subs ++ [(n, ⟨n, pattern, sid, opts⟩)],
        subscriberIndex := idxAppend idx sid n,
        nextId := n + 1 }
    set sub : Subscription := ⟨n, pattern, sid, opts⟩ with hsub
    have hnone : alookup n subs = none := alookup_of_forall_lt n subs hbnd
    have happ : ∀ i, alookup i (subs ++ [(n, sub)]) =
        if i = n then some sub else alookup i subs := by
      intro i
      rw [alookup_append]
      by_cases hin : i = n
      · subst hin
        rw [hnone, if_pos rfl, alookup_cons_self]
      · cases ho : alookup i subs with
        | none =>
          rw [if_neg hin, alookup_cons_ne (fun h : n = i => hin h.symm),
            alookup_nil]
        | some v => rw [if_neg hin]
    refine ⟨?_, ?_, ?_, ?_, ?_, ?_, ?_⟩
    · simp only [List.map_append, List.map_cons, List.map_nil]
      rw [List.nodup_append]
      refine ⟨hknd, List.nodup_singleton n, ?_⟩
      intro x hx hx1
      rw [List.mem_singleton] at hx1
      subst hx1
      exact absurd hx ((alookup_eq_none_iff x subs).mp hnone)
    · exact idxAppend_keys_nodup hiknd sid n
    · refine idxAppend_entries idx sid n (fun vs => vs ≠ []) hine ?_ ?_
      · intro vs _ _
        simp
      · intro _
        simp
    · refine idxAppend_entries idx sid n (fun vs => vs.Nodup) hivnd ?_ ?_
      · intro vs hvs hlk
        rw [List.nodup_append]
        refine ⟨hvs, List.nodup_singleton n, ?_⟩
        intro x hx hx1
        rw [List.mem_singleton] at hx1
        subst hx1
        obtain ⟨sub', hsub', -⟩ := (hmem sid x).mp (by rw [hlk]; exact hx)
        rw [hnone] at hsub'
        exact Option.noConfusion hsub'
      · intro _
        exact List.nodup_singleton n
    · intro sid' i
      by_cases hsid : sid' = sid
      · subst hsid
        rw [alookup_idxAppend_self, Option.getD_some, List.mem_append,
          List.mem_singleton]
        by_cases hin : i = n
        · subst hin
          simp only [or_true, true_iff]
          exact ⟨sub, by rw [happ, if_pos rfl], rfl⟩
        · simp only [hin, or_false]
          rw [hmem sid' i]
          constructor
          · rintro ⟨sub', hs', hsid'⟩
            exact ⟨sub', by rw [happ, if_neg hin]; exact hs', hsid'⟩
          · rintro ⟨sub', hs', hsid'⟩
            rw [happ, if_neg hin] at hs'
            exact ⟨sub', hs', hsid'⟩
      · rw [alookup_idxAppend_ne hsid]
        rw [hmem sid' i]
        by_cases hin : i = n
        · subst hin
          constructor
          · rintro ⟨sub', hs', hsid'⟩
            rw [hnone] at hs'
            exact Option.noConfusion hs'
          · rintro ⟨sub', hs', hsid'⟩
            rw [happ, if_pos rfl] at hs'
            obtain rfl : sub = sub' := Option.some_injective _ hs'
            exact absurd hsid'.symm hsid
        · constructor
          · rintro ⟨sub', hs', hsid'⟩
            exact ⟨sub', by rw [happ, if_neg hin]; exact hs', hsid'⟩
          · rintro ⟨sub', hs', hsid'⟩
            rw [happ, if_neg hin] at hs'
            exact ⟨sub', hs', hsid'⟩
    · intro p hp
      rcases List.mem_append.mp hp with h | h
      · exact Nat.lt_succ_of_lt (hbnd p h)
      · rw [List.mem_singleton] at h
        subst h
        exact Nat.lt_succ_self n
    · rw [List.length_append, List.length_singleton, idxSum_idxAppend, hcnt]

theorem unsubscribe_inv {st : SubsState} (inv : SubsInv st)
    (subscriptionId : Nat) : SubsInv (unsubscribe st subscriptionId).2 := by
  obtain ⟨subs, idx, n⟩ := st
  obtain ⟨hknd, hiknd, hine, hivnd, hmem, hbnd, hcnt⟩ := inv
  simp only at hknd hiknd hine hivnd hmem hbnd hcnt
  rw [unsubscribe]
  cases hlk : alookup subscriptionId subs with
  | none => exact ⟨hknd, hiknd, hine, hivnd, hmem, hbnd, hcnt⟩
  | some sub =>
    simp only
    have hmemid : subscriptionId ∈ (alookup sub.subscriberId idx).getD [] :=
      (hmem sub.subscriberId subscriptionId).mpr ⟨sub, hlk, rfl⟩
    refine ⟨?_, ?_, ?_, ?_, ?_, ?_, ?_⟩
    · exact List.Nodup.sublist (aerase_keys_sublist subscriptionId subs) hknd
    · exact List.Nodup.sublist
        (idxRemoveVal_keys_sublist idx sub.subscriberId subscriptionId) hiknd
    · refine idxRemoveVal_entries idx sub.subscriberId subscriptionId
        (fun vs => vs ≠ []) hine ?_
      intro vs _ hf
      exact hf
    · refine idxRemoveVal_entries idx sub.subscriberId subscriptionId
        (fun vs => vs.Nodup) hivnd ?_
      intro vs hvs _
      exact nodup_removeAllVal hvs subscriptionId
    · intro sid' j
      by_cases hsid : sid' = sub.subscriberId
      · subst hsid
        rw [alookup_idxRemoveVal_self hiknd]
        have hlhs : ∀ l : List Nat,
            j ∈ (if l = [] then (none : Option (List Nat)) else some l).getD []
              ↔ j ∈ l := by
          intro l
          by_cases hl : l = []
          · subst hl
            simp
          · rw [if_neg hl, Option.getD_some]
        rw [hlhs, mem_removeAllVal]
        by_cases hj : j = subscriptionId
        · subst hj
          simp only [ne_eq, not_true_eq_false, and_false, false_iff]
          rintro ⟨sub', hs', -⟩
          rw [alookup_aerase_self _ _ hknd] at hs'
          exact Option.noConfusion hs'
        · rw [hmem sub.subscriberId j]
          simp only [ne_eq, hj, not_false_eq_true, and_true]
          constructor
          · rintro ⟨sub', hs', hsid'⟩
            exact ⟨sub', by rw [alookup_aerase_ne hj]; exact hs', hsid'⟩
          · rintro ⟨sub', hs', hsid'⟩
            rw [alookup_aerase_ne hj] at hs'
            exact ⟨sub', hs', hsid'⟩
      · rw [alookup_idxRemoveVal_ne hsid]
        rw [hmem sid' j]
        by_cases hj : j = subscriptionId
        · subst hj
          constructor
          · rintro ⟨sub', hs', hsid'⟩
            obtain rfl : sub = sub' := Option.some_injective _ (hlk ▸ hs')
            exact absurd hsid'.symm hsid
          · rintro ⟨sub', hs', hsid'⟩
            rw [alookup_aerase_self _ _ hknd] at hs'
            exact Option.noConfusion hs'
        · constructor
          · rintro ⟨sub', hs', hsid'⟩
            exact ⟨sub', by rw [alookup_aerase_ne hj]; exact hs', hsid'⟩
          · rintro ⟨sub', hs', hsid'⟩
            rw [alookup_aerase_ne hj] at hs'
            exact ⟨sub', hs', hsid'⟩
    · intro p hp
      exact hbnd p ((aerase_sublist subscriptionId subs).subset hp)
    · show (aerase subscriptionId subs).length =
        idxSum (idxRemoveVal idx sub.subscriberId subscriptionId)
      have h1 := length_aerase_of_some hlk
      have h2 := idxSum_idxRemoveVal hiknd hivnd hmemid
      omega

theorem unsubscribeAll_inv {st : SubsState} (inv : SubsInv st)
    (subscriberId : String) : SubsInv (unsubscribeAll st subscriberId) := by
  obtain ⟨subs, idx, n⟩ := st
  obtain ⟨hknd, hiknd, hine, hivnd, hmem, hbnd, hcnt⟩ := inv
  simp only at hknd hiknd hine hivnd hmem hbnd hcnt
  rw [unsubscribeAll]
  set ids : List Nat := (alookup subscriberId idx).getD [] with hids
  have hidsnd : ids.Nodup := by
    cases ho : alookup subscriberId idx with
    | none => rw [hids, ho]; exact List.nodup_nil
    | some vs =>
      rw [hids, ho, Option.getD_some]
      exact hivnd _ (mem_of_alookup_some ho)
  have hidskeys : ∀ k ∈ ids, k ∈ subs.map Prod.fst := by
    intro k hk
    obtain ⟨sub', hs', -⟩ := (hmem subscriberId k).mp hk
    exact mem_keys_of_alookup_some hs'
  refine ⟨?_, ?_, ?_, ?_, ?_, ?_, ?_⟩
  · exact eraseMany_keys_nodup hknd
  · exact List.Nodup.sublist (aerase_keys_sublist subscriberId idx) hiknd
  · intro p hp
    exact hine p ((aerase_sublist subscriberId idx).subset hp)
  · intro p hp
    exact hivnd p ((aerase_sublist subscriberId idx).subset hp)
  · intro sid' j
    by_cases hsid : sid' = subscriberId
    · subst hsid
      rw [alookup_aerase_self _ _ hiknd]
      simp only [Option.getD_none, List.not_mem_nil, false_iff]
      rintro ⟨sub', hs', hsid'⟩
      by_cases hj : j ∈ ids
      · rw [alookup_eraseMany_of_mem hj hknd] at hs'
        exact Option.noConfusion hs'
      · rw [alookup_eraseMany_of_not_mem hj] at hs'
        exact hj ((hmem sid' j).mpr ⟨sub', hs', hsid'⟩)
    · rw [alookup_aerase_ne hsid, hmem sid' j]
      by_cases hj : j ∈ ids
      · constructor
        · rintro ⟨sub', hs', hsid'⟩
          obtain ⟨sub'', hs'', hsid''⟩ := (hmem subscriberId j).mp hj
          obtain rfl : sub' = sub'' := Option.some_injective _ (hs' ▸ hs'')
          exact absurd (hsid'.symm.trans hsid'') hsid
        · rintro ⟨sub', hs', hsid'⟩
          rw [alookup_eraseMany_of_mem hj hknd] at hs'
          exact Option.noConfusion hs'
      · constructor
        · rintro ⟨sub', hs', hsid'⟩
          exact ⟨sub', by rw [alookup_eraseMany_of_not_mem hj]; exact hs', hsid'⟩
        · rintro ⟨sub', hs', hsid'⟩
          rw [alookup_eraseMany_of_not_mem hj] at hs'
          exact ⟨sub', hs', hsid'⟩
  · intro p hp
    exact hbnd p ((eraseMany_sublist ids subs).subset hp)
  · show (eraseMany ids subs).length = idxSum (aerase subscriberId idx)
    have h1 := length_eraseMany hknd hidsnd hidskeys
    have h2 := idxSum_aerase hiknd subscriberId
    rw [← hids] at h2
    omega

/-- C10: the subscription table and the subscriber index stay mutually
consistent under `subscribe`, `unsubscribe` and `unsubscribeAll`: an id is
listed under a subscriber in the index exactly when a subscription with
that id and subscriber exists in the table, no index entry is empty, and
`totalSubscribers()` equals the total number of ids held across the index
(so `subscriptionsFor` returns exactly the live ids owned by a
subscriber).  The invariant holds of the empty bus and is preserved by
every operation. -/
theorem bus_subscription_index_consistency :
    SubsInv ⟨[], [], 0⟩ ∧
    ∀ st : SubsState, SubsInv st →
      (∀ pattern sid hasHandler opts,
        SubsInv (subscribe st pattern sid hasHandler opts).2) ∧
      (∀ i, SubsInv (unsubscribe st i).2) ∧
      (∀ sid, SubsInv (unsubscribeAll st sid)) ∧
      totalSubscribers st = idxSum st.subscriberIndex ∧
      (∀ sid i, i ∈ subscriptionsFor st sid ↔
        ∃ sub, alookup i st.subscriptions = some sub ∧
          sub.subscriberId = sid) :=
  ⟨subsInv_empty, fun _ inv =>
    ⟨fun pattern sid hasHandler opts =>
        subscribe_inv inv pattern sid hasHandler opts,
      fun i => unsubscribe_inv inv i,
      fun sid => unsubscribeAll_inv inv sid,
      inv.count_eq,
      inv.mem_iff⟩⟩

/-- Witness for `bus_subscription_index_consistency`: invariant of the
empty bus, propagated through a concrete `subscribe`. -/
theorem bus_subscription_index_consistency_witness :
    SubsInv (subscribe ⟨[], [], 0⟩ "orders/*" "plugin-a" true
      ⟨0, false, false⟩).2 :=
  (bus_subscription_index_consistency.2 ⟨[], [], 0⟩
    bus_subscription_index_consistency.1).1 "orders/*" "plugin-a" true
    ⟨0, false, false⟩

/-! ## Event bus: delivery (`publish` / `publishSync` via `deliverEvent`)

`deliverEvent` snapshots the matching subscriptions under the lock by
iterating `m_subscriptions` (a `QHash` keyed by random UUIDs, so the
iteration order is unspecified), sorts them with `std::sort` by descending
priority (`std::sort` is not stable), and then runs the dispatch loop.  The
model is parameterised by the iteration order and by the sort result, each
constrained to what the C++ guarantees. -/

/-- `EventBusService::findMatchingSubscriptions`: the stored subscriptions
whose compiled regex matches the topic, in table-iteration order. -/
def findMatchingSubscriptions (table : List Subscription) (topic : String) :
    List Subscription :=
  table.filter (fun s => matchesTopic topic s.pattern)

/-- The dispatch loop of `deliverEvent` (lines 77-95): each match is
skipped when `!receiveOwnEvents && subscriberId == senderId`; otherwise its
handler is dispatched — queued when `async && !synchronous`, inline
otherwise — and counted.  The result lists the dispatches in loop order,
`true` marking an inline call; `notified` is the list's length. -/
def deliverLoop : List Subscription → String → Bool → List (Subscription × Bool)
  | [], _, _ => []
  | s :: rest, senderId, synchronous =>
      if !s.options.receiveOwnEvents && s.subscriberId == senderId then
        deliverLoop rest senderId synchronous
      else
        (s, !(s.options.async && !synchronous)) ::
          deliverLoop rest senderId synchronous

/-- The postcondition of `std::sort` with comparator
`a.priority > b.priority`: some permutation of the input whose priorities
are nonincreasing.  Stability is not guaranteed. -/
def IsPrioritySorted (l : List Subscription) : Prop :=
  l.Pairwise (fun a b => b.options.priority ≤ a.options.priority)

/-- A possible outcome of one `deliverEvent` call on a bus whose
subscription table holds `table` (listed in subscription order): the hash
is iterated in some order `iter`, the matches are `std::sort`ed into
`sorted`, and the dispatch loop runs over `sorted`. -/
def ValidDelivery (table : List Subscription) (ev : Event)
    (synchronous : Bool) (out : List (Subscription × Bool)) : Prop :=
  ∃ iter sorted, List.Perm table iter ∧
    List.Perm (findMatchingSubscriptions iter ev.topic) sorted ∧
    IsPrioritySorted sorted ∧
    out = deliverLoop sorted ev.senderId synchronous

theorem deliverLoop_eq (l : List Subscription) (senderId : String)
    (synchronous : Bool) :
    deliverLoop l senderId synchronous =
      (l.filter (fun s =>
          !(!s.options.receiveOwnEvents && s.subscriberId == senderId))).map
        (fun s => (s, !(s.options.async && !synchronous))) := by
  induction l with
  | nil => rfl
  | cons s rest ih =>
    by_cases h : (!s.options.receiveOwnEvents && s.subscriberId == senderId)
      = true
    · rw [deliverLoop, if_pos h, List.filter_cons, ih]
      simp [h]
    · rw [deliverLoop, if_neg h, List.filter_cons, ih]
      simp only [Bool.not_eq_true] at h
      simp [h]

theorem deliverLoop_map_fst (l : List Subscription) (senderId : String)
    (synchronous : Bool) :
    (deliverLoop l senderId synchronous).map Prod.fst =
      l.filter (fun s =>
        !(!s.options.receiveOwnEvents && s.subscriberId == senderId)) := by
  rw [deliverLoop_eq, List.map_map]
  exact List.map_id _

/-- The tie-breaking rule asserted by the specification: whenever two
equal-priority subscriptions are both invoked, the one subscribed earlier
is invoked first. -/
def TiesFollowSubscriptionOrder (table : List Subscription)
    (out : List (Subscription × Bool)) : Prop :=
  ∀ i j a b, i < j →
    (out.map Prod.fst).get? i = some a →
    (out.map Prod.fst).get? j = some b →
    a.options.priority = b.options.priority →
    ∃ i' j', i' < j' ∧ table.get? i' = some a ∧ table.get? j' = some b

/-- A subscription subscribed first ... -/
def subA : Subscription := ⟨1, "t", "a", ⟨0, false, false⟩⟩

/-- ... and a second one on the same pattern with equal priority. -/
def subB : Subscription := ⟨2, "t", "b", ⟨0, false, false⟩⟩

/-- An event on their common topic from an unrelated sender. -/
def evT : Event := ⟨"t", "x", [], 0⟩

/-- C2 counterexample: with two equal-priority subscriptions `subA` (first)
and `subB` (second) on the same topic, a valid `publishSync` execution
(hash iteration `[subB, subA]`, which the unstable `std::sort` may keep)
invokes `subB` before `subA`, violating the claimed tie-breaking by
subscription order. -/
theorem deliver_tie_order_counterexample :
    ValidDelivery [subA, subB] evT true [(subB, true), (subA, true)] ∧
    subA.options.priority = subB.options.priority ∧
    ¬ TiesFollowSubscriptionOrder [subA, subB] [(subB, true), (subA, true)] := by
  refine ⟨⟨[subB, subA], [subB, subA], List.Perm.swap subB subA [], ?_, ?_, ?_⟩,
    rfl, ?_⟩
  · rw [show findMatchingSubscriptions [subB, subA] evT.topic = [subB, subA]
      from by decide]
  · show List.Pairwise _ [subB, subA]
    refine List.Pairwise.cons ?_ (List.pairwise_singleton _ _)
    intro b hb
    rw [List.mem_singleton] at hb
    subst hb
    exact le_refl _
  · rfl
  · intro hT
    obtain ⟨i', j', hij, hi, hj⟩ := hT 0 1 subB subA (by omega) rfl rfl rfl
    match i', hi with
    | 0, hi => exact absurd hi (by decide)
    | 1, hi =>
      match j', hij, hj with
      | 0, hij, _ => exact absurd hij (by omega)
      | 1, hij, _ => exact absurd hij (by omega)
      | j' + 2, _, hj => exact Option.noConfusion hj
    | i' + 2, hi => exact Option.noConfusion hi

/-- C2 amended: every valid delivery invokes the retained matches in
nonincreasing (descending) `options.priority` order; the relative order of
equal-priority subscriptions is whatever the unspecified hash-iteration
order and the unstable `std::sort` produce, so it need not be subscription
order. -/
theorem deliver_priority_descending (table : List Subscription) (ev : Event)
    (synchronous : Bool) (out : List (Subscription × Bool))
    (h : ValidDelivery table ev synchronous out) :
    (out.map Prod.fst).Pairwise
      (fun a b => b.options.priority ≤ a.options.priority) := by
  obtain ⟨iter, sorted, -, -, hsort, rfl⟩ := h
  rw [deliverLoop_map_fst]
  exact List.Pairwise.sublist (List.filter_sublist sorted) hsort

/-- Witness for `deliver_priority_descending` at a concrete delivery. -/
theorem deliver_priority_descending_witness :
    ([((subA : Subscription), true)].map Prod.fst).Pairwise
      (fun a b => b.options.priority ≤ a.options.priority) :=
  deliver_priority_descending [subA] evT true [(subA, true)]
    ⟨[subA], [subA], List.Perm.refl _,
      by rw [show findMatchingSubscriptions [subA] evT.topic = [subA]
        from by decide],
      List.pairwise_singleton _ _, rfl⟩

/-- C5: in every valid `publishSync` delivery a match is skipped exactly
when `receiveOwnEvents` is false and its subscriber is the sender; every
retained match is dispatched inline; and the returned count equals the
number of retained matches (it is computed from the subscription list
alone, independent of the handlers). -/
theorem publishSync_skip_filter_count (table : List Subscription) (ev : Event)
    (out : List (Subscription × Bool)) (h : ValidDelivery table ev true out) :
    (∀ p ∈ out, p.2 = true) ∧
    out.length = ((findMatchingSubscriptions table ev.topic).filter
      (fun s =>
        !(!s.options.receiveOwnEvents && s.subscriberId == ev.senderId))).length ∧
    (∀ s : Subscription, s ∈ out.map Prod.fst ↔
      s ∈ findMatchingSubscriptions table ev.topic ∧
        ¬(s.options.receiveOwnEvents = false ∧ s.subscriberId = ev.senderId)) := by
  obtain ⟨iter, sorted, hperm, hmatch, hsort, rfl⟩ := h
  have hchain : List.Perm
      ((deliverLoop sorted ev.senderId true).map Prod.fst)
      ((findMatchingSubscriptions table ev.topic).filter
        (fun s =>
          !(!s.options.receiveOwnEvents && s.subscriberId == ev.senderId))) := by
    rw [deliverLoop_map_fst]
    refine List.Perm.trans (List.Perm.filter _ hmatch.symm) ?_
    exact List.Perm.filter _ (List.Perm.filter _ hperm.symm)
  refine ⟨?_, ?_, ?_⟩
  · intro p hp
    rw [deliverLoop_eq] at hp
    obtain ⟨s, -, rfl⟩ := List.mem_map.mp hp
    simp
  · have := hchain.length_eq
    rwa [List.length_map] at this
  · intro s
    rw [hchain.mem_iff, List.mem_filter]
    constructor
    · rintro ⟨hmem, hcond⟩
      refine ⟨hmem, ?_⟩
      rintro ⟨hrcv, hsid⟩
      rw [hrcv, hsid] at hcond
      simp at hcond
    · rintro ⟨hmem, hcond⟩
      refine ⟨hmem, ?_⟩
      cases hrcv : s.options.receiveOwnEvents with
      | true => simp [hrcv]
      | false =>
        simp only [hrcv, Bool.not_false, Bool.true_and, Bool.not_eq_true',
          beq_eq_false_iff_ne, ne_eq]
        intro hsid
        exact hcond ⟨hrcv, hsid⟩

/-- Witness for `publishSync_skip_filter_count` at a concrete delivery. -/
theorem publishSync_skip_filter_count_witness :
    (∀ p ∈ [((subA : Subscription), true)], p.2 = true) ∧
    [((subA : Subscription), true)].length =
      ((findMatchingSubscriptions [subA] evT.topic).filter
        (fun s =>
          !(!s.options.receiveOwnEvents &&
            s.subscriberId == evT.senderId))).length ∧
    (∀ s : Subscription, s ∈ [((subA : Subscription), true)].map Prod.fst ↔
      s ∈ findMatchingSubscriptions [subA] evT.topic ∧
        ¬(s.options.receiveOwnEvents = false ∧
          s.subscriberId = evT.senderId)) :=
  publishSync_skip_filter_count [subA] evT [(subA, true)]
    ⟨[subA], [subA], List.Perm.refl _,
      by rw [show findMatchingSubscriptions [subA] evT.topic = [subA]
        from by decide],
      List.pairwise_singleton _ _, rfl⟩

/-! ## Event bus: request/response

A request handler returns a response map; a C++ exception raised inside a
handler is modelled by the `Except.error` branch, and the `try`/`catch` at
the bus boundary (`request`, lines 285-294) by mapping it to `none`. -/

/-- The type of request handlers (`RequestHandler` in `ieventbus.h`). -/
abbrev RequestHandlerFn : Type :=
  Event → Except String (List (String × String))

/-- One entry of `m_requestHandlers`. -/
structure HandlerEntry where
  topic : String
  handlerId : String
  handler : RequestHandlerFn

/-- Request/response state of the bus: `m_requestHandlers` and
`m_handlerIndex`. -/
structure RequestState where
  requestHandlers : List (String × HandlerEntry)
  handlerIndex : List (String × List String)

/-- `EventBusService::registerHandler`: rejected when the topic is empty or
the handler is null; rejected without any side effect when the topic is
already claimed; otherwise the entry is stored and indexed. -/
def registerHandler (st : RequestState) (topic handlerId : String)
    (handler : Option RequestHandlerFn) : Bool × RequestState :=
  match handler with
  | none => (false, st)
  | some h =>
      if topic = "" then (false, st)
      else if (alookup topic st.requestHandlers).isSome then (false, st)
      else
        (true,
          { requestHandlers :=
              st.requestHandlers ++ [(topic, ⟨topic, handlerId, h⟩)],
            handlerIndex := idxAppend st.handlerIndex handlerId topic })

/-- `EventBusService::request`: exact-topic lookup (no wildcard); an absent
handler yields `none`; the handler is invoked outside the lock and any
failure it raises is caught at the boundary and converted to `none`.
`timeoutMs` is accepted but unused (`Q_UNUSED`). -/
def request (st : RequestState) (topic : String)
    (data : List (String × String)) (senderId : String) (timestamp : Nat)
    (_timeoutMs : Nat) : Option (List (String × String)) :=
  match alookup topic st.requestHandlers with
  | none => none
  | some entry =>
      match entry.handler ⟨topic, senderId, data, timestamp⟩ with
      | Except.ok response => some response
      | Except.error _ => none

/-- C6: `request` yields "no value" exactly when no handler is registered
for the exact topic or the registered handler raises a failure; a handler
failure is caught at the bus boundary and never propagates (the successful
case returns the handler's response). -/
theorem request_failure_yields_none (st : RequestState) (topic : String)
    (data : List (String × String)) (senderId : String) (ts tm : Nat) :
    (alookup topic st.requestHandlers = none →
      request st topic data senderId ts tm = none) ∧
    (∀ entry msg, alookup topic st.requestHandlers = some entry →
      entry.handler ⟨topic, senderId, data, ts⟩ = Except.error msg →
      request st topic data senderId ts tm = none) ∧
    (∀ entry response, alookup topic st.requestHandlers = some entry →
      entry.handler ⟨topic, senderId, data, ts⟩ = Except.ok response →
      request st topic data senderId ts tm = some response) ∧
    (request st topic data senderId ts tm = none ↔
      alookup topic st.requestHandlers = none ∨
      ∃ entry msg, alookup topic st.requestHandlers = some entry ∧
        entry.handler ⟨topic, senderId, data, ts⟩ = Except.error msg) := by
  refine ⟨?_, ?_, ?_, ?_⟩
  · intro h
    simp only [request, h]
  · intro entry msg hlk hh
    simp only [request, hlk, hh]
  · intro entry response hlk hh
    simp only [request, hlk, hh]
  · cases hlk : alookup topic st.requestHandlers with
    | none => simp [request, hlk]
    | some entry =>
      cases hh : entry.handler ⟨topic, senderId, data, ts⟩ with
      | ok response =>
        simp only [request, hlk, hh, reduceCtorEq, false_iff]
        rintro (h | ⟨entry', msg, hlk', hh'⟩)
        · exact h
        · obtain rfl : entry = entry' := Option.some_injective _ hlk'
          rw [hh] at hh'
          exact Except.noConfusion hh'
      | error msg =>
        simp only [request, hlk, hh]
        exact ⟨fun _ => Or.inr ⟨entry, msg, rfl, hh⟩, fun _ => trivial⟩

/-- A handler whose invocation raises a failure. -/
def handlerBoom : RequestHandlerFn := fun _ => Except.error "boom"

/-- A state with `handlerBoom` registered for topic `broken`. -/
def stBroken : RequestState :=
  (registerHandler ⟨[], []⟩ "broken" "b" (some handlerBoom)).2

/-- Witness for `request_failure_yields_none`: a request whose handler
raises returns "no value". -/
theorem request_failure_yields_none_witness :
    request stBroken "broken" [] "s" 0 0 = none :=
  (request_failure_yields_none stBroken "broken" [] "s" 0 0).2.1
    ⟨"broken", "b", handlerBoom⟩ "boom" rfl rfl

/-- C7: at most one request handler per topic — registering on a claimed
topic returns `false` and leaves the state unchanged, so a later `request`
still returns the first handler's response; registration also fails
without side effect on an empty topic or a null handler. -/
theorem registerHandler_exclusive (st : RequestState)
    (topic handlerId : String) (handler : Option RequestHandlerFn) :
    ((alookup topic st.requestHandlers).isSome →
      registerHandler st topic handlerId handler = (false, st)) ∧
    (topic = "" → registerHandler st topic handlerId handler = (false, st)) ∧
    (handler = none → registerHandler st topic handlerId handler = (false, st)) ∧
    (∀ entry data senderId ts tm response,
      alookup topic st.requestHandlers = some entry →
      entry.handler ⟨topic, senderId, data, ts⟩ = Except.ok response →
      request (registerHandler st topic handlerId handler).2 topic data
        senderId ts tm = some response) := by
  refine ⟨?_, ?_, ?_, ?_⟩
  · intro hsome
    cases handler with
    | none => rfl
    | some h =>
      simp only [registerHandler]
      by_cases ht : topic = ""
      · rw [if_pos ht]
      · rw [if_neg ht, if_pos hsome]
  · intro ht
    cases handler with
    | none => rfl
    | some h =>
      simp only [registerHandler]
      rw [if_pos ht]
  · intro hn
    subst hn
    rfl
  · intro entry data senderId ts tm response hlk hh
    have hst : (registerHandler st topic handlerId handler).2 = st := by
      cases handler with
      | none => rfl
      | some h =>
        simp only [registerHandler]
        by_cases ht : topic = ""
        · rw [if_pos ht]
        · rw [if_neg ht, if_pos (by rw [hlk]; rfl)]
    rw [hst]
    simp only [request, hlk, hh]

/-- The first handler registered for topic `dup`. -/
def handlerA : RequestHandlerFn := fun _ => Except.ok [("from", "a")]

/-- A competing handler for the same topic. -/
def handlerB : RequestHandlerFn := fun _ => Except.ok [("from", "b")]

/-- A state with `handlerA` already registered for topic `dup`. -/
def stDup : RequestState :=
  (registerHandler ⟨[], []⟩ "dup" "a" (some handlerA)).2

/-- Witness for `registerHandler_exclusive`: after a second registration
attempt on `dup`, a request still returns the first handler's response. -/
theorem registerHandler_exclusive_witness :
    request (registerHandler stDup "dup" "b" (some handlerB)).2 "dup" [] "s"
      0 0 = some [("from", "a")] :=
  (registerHandler_exclusive stDup "dup" "b" (some handlerB)).2.2.2
    ⟨"dup", "a", handlerA⟩ [] "s" 0 0 [("from", "a")] rfl rfl

/-! ## Plugin manager: metadata, dependency checking, load order

`PluginManager` (`plugin_manager.cpp`) keeps `m_pluginMap : id → loader`
and `m_serviceProviderMap : service → provider id` built during
`discover`.  `plugin_metadata.*` and `plugin_loader.*` are not among the
sources, so their small data types are modelled from the spec. -/

/-- `PluginDependency::Type`. -/
inductive DepType : Type
  | plugin
  | service
  deriving DecidableEq, Repr

/-- Modelled from the spec: `Version` of the missing `plugin_metadata.*` —
a comparable semantic version, modelled as a major/minor/patch triple. -/
structure Version where
  major : Nat
  minor : Nat
  patch : Nat
  deriving DecidableEq, Repr

/-- Modelled from the spec: `Version::operator<` — lexicographic order on
(major, minor, patch). -/
def versionLt (a b : Version) : Bool :=
  a.major < b.major ∨
    (a.major = b.major ∧
      (a.minor < b.minor ∨ (a.minor = b.minor ∧ a.patch < b.patch)))

/-- Modelled from the spec: `Version::toString` — `major.minor.patch`. -/
def versionToString (v : Version) : String :=
  toString v.major ++ "." ++ toString v.minor ++ "." ++ toString v.patch

/-- One entry of a metadata `requires` list (`PluginDependency`). -/
structure PluginDependency where
  type : DepType
  id : String
  minVersion : Version
  optional : Bool
  deriving DecidableEq, Repr

/-- `PluginMetadata`: the fields used by the manager. -/
structure PluginMetadata where
  id : String
  version : Version
  provides : List String
  requires : List PluginDependency
  deriving DecidableEq, Repr

/-- Modelled from the spec: `PluginLoader` of the missing
`plugin_loader.*` — the per-plugin record holding the metadata and the
outcome of its `Loadable.load()` (`loadOk`, with `errMsg` the
`errorString()` reported on failure). -/
structure PluginLoader where
  metadata : PluginMetadata
  loadOk : Bool
  errMsg : String
  deriving DecidableEq, Repr

/-- `m_pluginMap.value(id)`: the discovered loader for an id.  The model
keeps the discovered loaders as a list; `discover` rejects duplicate ids,
and lookup returns the first (only) match. -/
def findPlugin (ps : List PluginLoader) (id : String) : Option PluginLoader :=
  match ps with
  | [] => none
  | ld :: rest => if ld.metadata.id = id then some ld else findPlugin rest id

/-- The keys of `m_pluginMap`, in iteration order (modelled as discovery
order; fixed for a given manager state, as a `QHash` iterated without
intervening mutation). -/
def pluginIds (ps : List PluginLoader) : List String :=
  ps.map (fun ld => ld.metadata.id)

/-- The inner loop of `discover` building `m_serviceProviderMap`:
first-registrant wins, later claimants only get a diagnostic. -/
def addProviders (acc : List (String × String)) (id : String) :
    List String → List (String × String)
  | [] => acc
  | s :: rest =>
      if (alookup s acc).isSome then addProviders acc id rest
      else addProviders (acc ++ [(s, id)]) id rest

/-- `m_serviceProviderMap` as built by `discover` over the loaders in
discovery order. -/
def providerMapAux (acc : List (String × String)) :
    List PluginLoader → List (String × String)
  | [] => acc
  | ld :: rest =>
      providerMapAux (addProviders acc ld.metadata.id ld.metadata.provides) rest

/-- The service-provider map of a manager that discovered `ps`. -/
def providerMap (ps : List PluginLoader) : List (String × String) :=
  providerMapAux [] ps

/-- `PluginManager::resolveServiceProvider`: `m_serviceProviderMap.value`,
empty string when the service has no provider. -/
def resolveServiceProvider (pm : List (String × String))
    (serviceId : String) : String :=
  (alookup serviceId pm).getD ""

/-- The loop body of `PluginManager::checkDependencies` (lines 254-272). -/
def checkDependenciesAux (ps : List PluginLoader)
    (pm : List (String × String)) : List PluginDependency → List String
  | [] => []
  | dep :: rest =>
      if dep.optional then checkDependenciesAux ps pm rest
      else
        match dep.type with
        | DepType.plugin =>
            match findPlugin ps dep.id with
            | none => ("plugin:" ++ dep.id) :: checkDependenciesAux ps pm rest
            | some depPlugin =>
                if versionLt depPlugin.metadata.version dep.minVersion then
                  ("plugin:" ++ dep.id ++ ">=" ++
                      versionToString dep.minVersion) ::
                    checkDependenciesAux ps pm rest
                else checkDependenciesAux ps pm rest
        | DepType.service =>
            if resolveServiceProvider pm dep.id = "" then
              ("service:" ++ dep.id) :: checkDependenciesAux ps pm rest
            else checkDependenciesAux ps pm rest

/-- `PluginManager::checkDependencies` on a manager that discovered `ps`. -/
def checkDependencies (ps : List PluginLoader) (md : PluginMetadata) :
    List String :=
  checkDependenciesAux ps (providerMap ps) md.requires

/-- The dependency edge target of one `requires` entry inside
`topologicalSort`: a `Plugin` dependency names its plugin directly, a
`Service` dependency resolves through the provider map. -/
def depTarget (pm : List (String × String)) (dep : PluginDependency) :
    String :=
  match dep.type with
  | DepType.plugin => dep.id
  | DepType.service => resolveServiceProvider pm dep.id

/-- The ids `topologicalSort(id, …)` recurses on, in `requires` order:
targets that are non-empty and discovered.  Note the loop does not skip
optional dependencies. -/
def depTargets (ps : List PluginLoader) (pm : List (String × String))
    (md : PluginMetadata) : List String :=
  md.requires.filterMap (fun dep =>
    if depTarget pm dep ≠ "" ∧ (findPlugin ps (depTarget pm dep)).isSome
    then some (depTarget pm dep) else none)

/-- The ids visited from `id` (`loader` may be absent, in which case the
C++ visits no dependencies but still marks and appends `id`). -/
def visitDeps (ps : List PluginLoader) (pm : List (String × String))
    (id : String) : List String :=
  match findPlugin ps id with
  | none => []
  | some ld => depTargets ps pm ld.metadata

/-- Update of the 3-colour state table (`QHash<QString,int> state`;
`value` of a missing key is 0 = unvisited). -/
def stSet (st : String → Nat) (id : String) (v : Nat) : String → Nat :=
  fun x => if x = id then v else st x

theorem stSet_self (st : String → Nat) (id : String) (v : Nat) :
    stSet st id v id = v := by
  simp [stSet]

theorem stSet_ne {x id : String} (h : x ≠ id) (st : String → Nat) (v : Nat) :
    stSet st id v x = st x := by
  simp [stSet, h]

/-- The dependency loop of `topologicalSort` (lines 311-326): visit each
target in turn; a `false` from a nested visit aborts the loop and
propagates `false` (the caller then neither marks `id` visited nor appends
it). -/
def runDeps (step : String → (String → Nat) → List String →
      Option (Bool × (String → Nat) × List String)) :
    List String → (String → Nat) → List String →
      Option (Bool × (String → Nat) × List String)
  | [], st, order => some (true, st, order)
  | d :: ds, st, order =>
      match step d st order with
      | none => none
      | some (false, st2, ord2) => some (false, st2, ord2)
      | some (true, st2, ord2) => runDeps step ds st2 ord2

/-- `PluginManager::topologicalSort` (lines 300-332), with a recursion-depth
fuel (`none` = fuel exhausted, an artefact that `visit_isSome` below rules
out for the fuel used by `computeLoadOrder`): an already-visited node
returns `true`, a node in the `visiting` state reports a cycle by
returning `false`, otherwise the node is marked visiting, its discovered
dependency targets are visited, and on success the node is marked visited
and appended to the order. -/
def visit (ps : List PluginLoader) (pm : List (String × String)) :
    Nat → String → (String → Nat) → List String →
      Option (Bool × (String → Nat) × List String)
  | 0, _, _, _ => none
  | fuel + 1, id, st, order =>
      if st id = 2 then some (true, st, order)
      else if st id = 1 then some (false, st, order)
      else
        match runDeps (fun d st2 ord2 => visit ps pm fuel d st2 ord2)
            (visitDeps ps pm id) (stSet st id 1) order with
        | none => none
        | some (false, st2, ord2) => some (false, st2, ord2)
        | some (true, st2, ord2) => some (true, stSet st2 id 2, ord2 ++ [id])

/-- The sweep of `computeLoadOrder` (lines 291-295) over the map keys: each
root failure is recorded as a cycle diagnostic naming that root, and the
sweep continues with the remaining keys. -/
def sweepIds (ps : List PluginLoader) (pm : List (String × String)) :
    List String → (String → Nat) → List String → List String →
      Option ((String → Nat) × List String × List String)
  | [], st, order, diags => some (st, order, diags)
  | id :: ids, st, order, diags =>
      match visit ps pm (ps.length + 1) id st order with
      | none => none
      | some (ok, st2, ord2) =>
          sweepIds ps pm ids st2 ord2 (if ok then diags else diags ++ [id])

/-- `PluginManager::computeLoadOrder` together with the final state table
and the cycle diagnostics it emits.  The fuel `ps.length + 1` bounds the
recursion depth; `visit_isSome` below shows the `none` fallback is never
taken. -/
def computeLoadOrderFull (ps : List PluginLoader) :
    (String → Nat) × List String × List String :=
  match sweepIds ps (providerMap ps) (pluginIds ps) (fun _ => 0) [] [] with
  | none => (fun _ => 0, [], [])
  | some r => r

/-- `PluginManager::computeLoadOrder`: the returned order. -/
def computeLoadOrder (ps : List PluginLoader) : List String :=
  (computeLoadOrderFull ps).2.1

/-- The cycle diagnostics (`qWarning` roots) of one `computeLoadOrder`. -/
def cycleDiagnostics (ps : List PluginLoader) : List String :=
  (computeLoadOrderFull ps).2.2

/-! ### Invariants of the depth-first sweep -/

theorem findPlugin_isSome_iff (ps : List PluginLoader) (id : String) :
    (findPlugin ps id).isSome = true ↔ id ∈ pluginIds ps := by
  induction ps with
  | nil => simp [findPlugin, pluginIds]
  | cons ld rest ih =>
    by_cases h : ld.metadata.id = id
    · rw [findPlugin, if_pos h]
      simp only [Option.isSome_some, true_iff, pluginIds, List.map_cons,
        List.mem_cons]
      exact Or.inl h.symm
    · rw [findPlugin, if_neg h, ih]
      simp only [pluginIds, List.map_cons, List.mem_cons]
      constructor
      · exact fun hm => Or.inr hm
      · rintro (hm | hm)
        · exact absurd hm.symm h
        · exact hm

theorem visitDeps_subset (ps : List PluginLoader) (pm : List (String × String))
    (id : String) : ∀ d ∈ visitDeps ps pm id, d ∈ pluginIds ps := by
  intro d hd
  rw [visitDeps] at hd
  cases hfp : findPlugin ps id with
  | none => rw [hfp] at hd; simp at hd
  | some ld =>
    rw [hfp] at hd
    simp only [depTargets] at hd
    obtain ⟨dep, -, hdep⟩ := List.mem_filterMap.mp hd
    by_cases hc : depTarget pm dep ≠ "" ∧ (findPlugin ps (depTarget pm dep)).isSome
    · rw [if_pos hc] at hdep
      obtain rfl : depTarget pm dep = d := Option.some_injective _ hdep
      exact (findPlugin_isSome_iff ps _).mp hc.2
    · rw [if_neg hc] at hdep
      exact Option.noConfusion hdep

/-- The invariant relating the colour table and the produced order: the
`visited` nodes are exactly the ordered ones, the order has no duplicates,
and every ordered node's dependency targets precede it. -/
structure InvSO (ps : List PluginLoader) (pm : List (String × String))
    (st : String → Nat) (order : List String) : Prop where
  mem2 : ∀ x, st x = 2 ↔ x ∈ order
  nodup : order.Nodup
  closed : ∀ l₁ x l₂, order = l₁ ++ x :: l₂ → ∀ d ∈ visitDeps ps pm x, d ∈ l₁

theorem InvSO.initial (ps : List PluginLoader) (pm : List (String × String)) :
    InvSO ps pm (fun _ => 0) [] := by
  refine ⟨?_, List.nodup_nil, ?_⟩
  · intro x
    simp
  · intro l₁ x l₂ h
    exact absurd h (by simp)

theorem closed_append {ps : List PluginLoader} {pm : List (String × String)}
    {order : List String} {id : String}
    (hc : ∀ l₁ x l₂, order = l₁ ++ x :: l₂ → ∀ d ∈ visitDeps ps pm x, d ∈ l₁)
    (hid : ∀ d ∈ visitDeps ps pm id, d ∈ order) :
    ∀ l₁ x l₂, order ++ [id] = l₁ ++ x :: l₂ → ∀ d ∈ visitDeps ps pm x, d ∈ l₁ := by
  intro l₁ x l₂ h
  rcases List.eq_nil_or_concat l₂ with rfl | ⟨l₂', z, rfl⟩
  · have h' : order ++ [id] = l₁ ++ [x] := h
    have hlen : order.length = l₁.length := by
      have := congrArg List.length h'
      simp only [List.length_append, List.length_singleton] at this
      omega
    obtain ⟨rfl, h2⟩ := List.append_inj h' hlen
    obtain rfl : id = x := by
      simpa using h2
    exact hid
  · have h' : order ++ [id] = (l₁ ++ x :: l₂') ++ [z] := by
      rw [h]
      simp
    have hlen : order.length = (l₁ ++ x :: l₂').length := by
      have := congrArg List.length h'
      simp only [List.length_append, List.length_singleton,
        List.length_cons] at this ⊢
      omega
    obtain ⟨rfl, h2⟩ := List.append_inj h' hlen
    exact hc l₁ x l₂' rfl

/-- How one successful `visit` (or dependency loop) evolves the state: no
mark is removed, `visiting`/`visited` marks persist, the order only grows,
only discovered ids get marked, states stay within the three colours, and
the sweep invariant is preserved. -/
structure EvolvesTo (ps : List PluginLoader) (pm : List (String × String))
    (st : String → Nat) (order : List String)
    (st' : String → Nat) (ord' : List String) : Prop where
  keep1 : ∀ x, st x = 1 → st' x = 1
  keep2 : ∀ x, st x = 2 → st' x = 2
  noUnmark : ∀ x, st' x = 0 → st x = 0
  ordExt : ∃ δ, ord' = order ++ δ
  markedIds : ∀ x, st' x ≠ 0 → st x ≠ 0 ∨ x ∈ pluginIds ps
  bounded : (∀ x, st x ≤ 2) → ∀ x, st' x ≤ 2
  inv : InvSO ps pm st order → InvSO ps pm st' ord'

theorem EvolvesTo.rfl {ps : List PluginLoader} {pm : List (String × String)}
    (st : String → Nat) (order : List String) :
    EvolvesTo ps pm st order st order :=
  ⟨fun _ h => h, fun _ h => h, fun _ h => h, ⟨[], by simp⟩,
    fun _ h => Or.inl h, fun h => h, fun h => h⟩

theorem EvolvesTo.trans {ps : List PluginLoader} {pm : List (String × String)}
    {st order st' ord' st'' ord''}
    (h1 : EvolvesTo ps pm st order st' ord')
    (h2 : EvolvesTo ps pm st' ord' st'' ord'') :
    EvolvesTo ps pm st order st'' ord'' := by
  refine ⟨?_, ?_, ?_, ?_, ?_, ?_, ?_⟩
  · exact fun x h => h2.keep1 x (h1.keep1 x h)
  · exact fun x h => h2.keep2 x (h1.keep2 x h)
  · exact fun x h => h1.noUnmark x (h2.noUnmark x h)
  · obtain ⟨d1, hd1⟩ := h1.ordExt
    obtain ⟨d2, hd2⟩ := h2.ordExt
    exact ⟨d1 ++ d2, by rw [hd2, hd1, List.append_assoc]⟩
  · intro x h
    rcases h2.markedIds x h with h' | h'
    · exact h1.markedIds x h'
    · exact Or.inr h'
  · exact fun h => h2.bounded (h1.bounded h)
  · exact fun h => h2.inv (h1.inv h)

theorem runDeps_evolves {ps : List PluginLoader} {pm : List (String × String)}
    (step : String → (String → Nat) → List String →
      Option (Bool × (String → Nat) × List String))
    (hstep : ∀ d st1 ord1 res1, d ∈ pluginIds ps →
      step d st1 ord1 = some res1 →
      EvolvesTo ps pm st1 ord1 res1.2.1 res1.2.2 ∧
      res1.2.1 d ≠ 0 ∧ (res1.1 = true → res1.2.1 d = 2)) :
    ∀ ds st order res, (∀ d ∈ ds, d ∈ pluginIds ps) →
      runDeps step ds st order = some res →
      EvolvesTo ps pm st order res.2.1 res.2.2 ∧
      (res.1 = true → ∀ d ∈ ds, res.2.1 d = 2) := by
  intro ds
  induction ds with
  | nil =>
    intro st order res hds hrun
    rw [runDeps] at hrun
    obtain rfl : ((true, st, order) : Bool × (String → Nat) × List String)
        = res := Option.some_injective _ hrun
    exact ⟨EvolvesTo.rfl st order, fun _ d hd => absurd hd (List.not_mem_nil d)⟩
  | cons d ds ih =>
    intro st order res hds hrun
    rw [runDeps] at hrun
    cases hst : step d st order with
    | none => rw [hst] at hrun; exact Option.noConfusion hrun
    | some res1 =>
      rw [hst] at hrun
      obtain ⟨b1, st2, ord2⟩ := res1
      have h1 := hstep d st order (b1, st2, ord2)
        (hds d (List.mem_cons_self _ _)) hst
      cases b1 with
      | false =>
        obtain rfl : ((false, st2, ord2) : Bool × (String → Nat) × List String)
            = res := Option.some_injective _ hrun
        refine ⟨h1.1, ?_⟩
        intro hf
        exact absurd hf (by simp)
      | true =>
        have h2 := ih st2 ord2 res
          (fun d' hd' => hds d' (List.mem_cons_of_mem _ hd')) hrun
        refine ⟨h1.1.trans h2.1, ?_⟩
        intro htrue d' hd'
        rcases List.mem_cons.mp hd' with rfl | hd'
        · exact h2.1.keep2 d' (h1.2.2 rfl)
        · exact h2.2 htrue d' hd'

theorem visit_evolves (ps : List PluginLoader) (pm : List (String × String)) :
    ∀ fuel id st order res,
      id ∈ pluginIds ps →
      visit ps pm fuel id st order = some res →
      EvolvesTo ps pm st order res.2.1 res.2.2 ∧
      res.2.1 id ≠ 0 ∧ (res.1 = true → res.2.1 id = 2) := by
  intro fuel
  induction fuel with
  | zero =>
    intro id st order res hid h
    exact Option.noConfusion h
  | succ fuel ih =>
    intro id st order res hid h
    rw [visit] at h
    by_cases h2 : st id = 2
    · rw [if_pos h2] at h
      obtain rfl : ((true, st, order) : Bool × (String → Nat) × List String)
          = res := Option.some_injective _ h
      exact ⟨EvolvesTo.rfl st order, by simp [h2], fun _ => h2⟩
    · rw [if_neg h2] at h
      by_cases h1 : st id = 1
      · rw [if_pos h1] at h
        obtain rfl : ((false, st, order) : Bool × (String → Nat) × List String)
            = res := Option.some_injective _ h
        refine ⟨EvolvesTo.rfl st order, by simp [h1], ?_⟩
        intro hf
        exact absurd hf (by simp)
      · rw [if_neg h1] at h
        have hst1id : stSet st id 1 id = 1 := stSet_self st id 1
        have hA : EvolvesTo ps pm st order (stSet st id 1) order := by
          refine ⟨?_, ?_, ?_, ⟨[], by simp⟩, ?_, ?_, ?_⟩
          · intro x hx
            by_cases hxi : x = id
            · subst hxi
              exact absurd hx h1
            · rw [stSet_ne hxi]
              exact hx
          · intro x hx
            by_cases hxi : x = id
            · subst hxi
              exact absurd hx h2
            · rw [stSet_ne hxi]
              exact hx
          · intro x hx
            by_cases hxi : x = id
            · subst hxi
              rw [stSet_self] at hx
              exact absurd hx (by omega)
            · rw [stSet_ne hxi] at hx
              exact hx
          · intro x hx
            by_cases hxi : x = id
            · subst hxi
              exact Or.inr hid
            · rw [stSet_ne hxi] at hx
              exact Or.inl hx
          · intro hb x
            by_cases hxi : x = id
            · subst hxi
              rw [stSet_self]
              omega
            · rw [stSet_ne hxi]
              exact hb x
          · rintro ⟨hm2, hnd, hcl⟩
            refine ⟨?_, hnd, hcl⟩
            intro x
            by_cases hxi : x = id
            · subst hxi
              rw [stSet_self]
              constructor
              · intro hq
                exact absurd hq (by omega)
              · intro hq
                exact absurd ((hm2 x).mpr hq) h2
            · rw [stSet_ne hxi]
              exact hm2 x
        cases hrd : runDeps (fun d st2 ord2 => visit ps pm fuel d st2 ord2)
            (visitDeps ps pm id) (stSet st id 1) order with
        | none => rw [hrd] at h; exact Option.noConfusion h
        | some res2 =>
          rw [hrd] at h
          obtain ⟨b2, st2, ord2⟩ := res2
          have hR := runDeps_evolves _
            (fun d sd od rd hd hrun => ih d sd od rd hd hrun)
            (visitDeps ps pm id) (stSet st id 1) order (b2, st2, ord2)
            (visitDeps_subset ps pm id) hrd
          have hst2id : st2 id = 1 := hR.1.keep1 id hst1id
          dsimp only at hR
          cases b2 with
          | false =>
            obtain rfl : ((false, st2, ord2) :
                Bool × (String → Nat) × List String) = res :=
              Option.some_injective _ h
            dsimp only
            refine ⟨hA.trans hR.1, by simp [hst2id], ?_⟩
            intro hf
            exact absurd hf (by simp)
          | true =>
            obtain rfl : ((true, stSet st2 id 2, ord2 ++ [id]) :
                Bool × (String → Nat) × List String) = res :=
              Option.some_injective _ h
            dsimp only
            have htargets : ∀ d ∈ visitDeps ps pm id, st2 d = 2 :=
              hR.2 rfl
            have hAB := hA.trans hR.1
            refine ⟨?_, by rw [stSet_self]; omega, fun _ => stSet_self _ _ _⟩
            refine ⟨?_, ?_, ?_, ?_, ?_, ?_, ?_⟩
            · intro x hx
              have hxi : x ≠ id := fun hh => h1 (hh ▸ hx)
              rw [stSet_ne hxi]
              exact hAB.keep1 x hx
            · intro x hx
              have hxi : x ≠ id := fun hh => h2 (hh ▸ hx)
              rw [stSet_ne hxi]
              exact hAB.keep2 x hx
            · intro x hx
              by_cases hxi : x = id
              · subst hxi
                rw [stSet_self] at hx
                exact absurd hx (by omega)
              · rw [stSet_ne hxi] at hx
                exact hAB.noUnmark x hx
            · obtain ⟨δ, hδ⟩ := hAB.ordExt
              exact ⟨δ ++ [id], by rw [hδ, List.append_assoc]⟩
            · intro x hx
              by_cases hxi : x = id
              · subst hxi
                exact Or.inr hid
              · rw [stSet_ne hxi] at hx
                exact hAB.markedIds x hx
            · intro hb x
              by_cases hxi : x = id
              · subst hxi
                rw [stSet_self]
              · rw [stSet_ne hxi]
                exact hAB.bounded hb x
            · intro hinv
              obtain ⟨hm2, hnd, hcl⟩ := hAB.inv hinv
              have hidnot : id ∉ ord2 := by
                intro hmem
                have hq := (hm2 id).mpr hmem
                rw [hst2id] at hq
                exact absurd hq (by omega)
              refine ⟨?_, ?_, ?_⟩
              · intro x
                by_cases hxi : x = id
                · subst hxi
                  rw [stSet_self]
                  simp
                · rw [stSet_ne hxi, List.mem_append, List.mem_singleton,
                    hm2 x]
                  simp [hxi]
              · rw [List.nodup_append]
                refine ⟨hnd, List.nodup_singleton id, ?_⟩
                intro a ha ha1
                rw [List.mem_singleton] at ha1
                subst ha1
                exact hidnot ha
              · exact closed_append hcl
                  (fun d hd => (hm2 d).mp (htargets d hd))

/-! ### The recursion-depth fuel is sufficient -/

theorem length_filter_mono {α : Type} {p q : α → Bool}
    (h : ∀ x, p x = true → q x = true) (l : List α) :
    (l.filter p).length ≤ (l.filter q).length := by
  induction l with
  | nil => exact Nat.le_refl 0
  | cons a l ih =>
    rw [List.filter_cons, List.filter_cons]
    by_cases hp : p a = true
    · rw [if_pos hp, if_pos (h a hp)]
      simpa using ih
    · rw [if_neg hp]
      by_cases hq : q a = true
      · rw [if_pos hq]
        exact ih.trans (by simp)
      · rw [if_neg hq]
        exact ih

/-- Number of still-unvisited discovered ids: the measure that bounds the
DFS recursion depth. -/
def avail (ps : List PluginLoader) (st : String → Nat) : Nat :=
  ((pluginIds ps).filter (fun i => st i == 0)).length

theorem avail_le (ps : List PluginLoader) (st : String → Nat) :
    avail ps st ≤ ps.length := by
  calc ((pluginIds ps).filter (fun i => st i == 0)).length
      ≤ (pluginIds ps).length := List.length_filter_le _ _
    _ = ps.length := List.length_map _ _

theorem avail_mono {ps : List PluginLoader} {st st' : String → Nat}
    (h : ∀ x, st' x = 0 → st x = 0) : avail ps st' ≤ avail ps st := by
  refine length_filter_mono ?_ (pluginIds ps)
  intro x hx
  rw [beq_iff_eq] at hx ⊢
  exact h x hx

theorem avail_set1_lt {ps : List PluginLoader} {st : String → Nat}
    {id : String} (hid : id ∈ pluginIds ps) (h0 : st id = 0) :
    avail ps (stSet st id 1) < avail ps st := by
  rw [avail, avail]
  have hgen : ∀ l : List String, id ∈ l →
      (l.filter (fun i => stSet st id 1 i == 0)).length <
        (l.filter (fun i => st i == 0)).length := by
    intro l hl
    induction l with
    | nil => simp at hl
    | cons a l ih =>
      rw [List.filter_cons, List.filter_cons]
      by_cases ha : a = id
      · subst ha
        rw [if_neg (by rw [stSet_self]; decide),
          if_pos (by rw [beq_iff_eq]; exact h0)]
        have hmono : (l.filter (fun i => stSet st a 1 i == 0)).length ≤
            (l.filter (fun i => st i == 0)).length := by
          refine length_filter_mono ?_ l
          intro x hx
          rw [beq_iff_eq] at hx ⊢
          by_cases hxa : x = a
          · subst hxa
            rw [stSet_self] at hx
            exact absurd hx (by omega)
          · rw [stSet_ne hxa] at hx
            exact hx
        simpa using Nat.lt_succ_of_le hmono
      · have hl' : id ∈ l := by
          rcases List.mem_cons.mp hl with h' | h'
          · exact absurd h'.symm ha
          · exact h'
        rw [show (stSet st id 1 a == 0) = (st a == 0) from by
          rw [stSet_ne ha]]
        by_cases hsa : (st a == 0) = true
        · rw [if_pos hsa, if_pos hsa]
          simpa using ih hl'
        · rw [if_neg hsa, if_neg hsa]
          exact ih hl'
  exact hgen (pluginIds ps) hid

theorem runDeps_isSome (ps : List PluginLoader) (pm : List (String × String))
    (fuel : Nat)
    (hvisit : ∀ id st order, id ∈ pluginIds ps → (∀ x, st x ≤ 2) →
      avail ps st < fuel → (visit ps pm fuel id st order).isSome) :
    ∀ ds st order, (∀ d ∈ ds, d ∈ pluginIds ps) → (∀ x, st x ≤ 2) →
      avail ps st < fuel →
      (runDeps (fun d st2 ord2 => visit ps pm fuel d st2 ord2)
        ds st order).isSome := by
  intro ds
  induction ds with
  | nil =>
    intro st order _ _ _
    rw [runDeps]
    rfl
  | cons d ds ih =>
    intro st order hds hb hav
    rw [runDeps]
    obtain ⟨res, hres⟩ := Option.isSome_iff_exists.mp
      (hvisit d st order (hds d (List.mem_cons_self _ _)) hb hav)
    rw [hres]
    obtain ⟨b1, st2, ord2⟩ := res
    cases b1 with
    | false => rfl
    | true =>
      have hev := visit_evolves ps pm fuel d st order (true, st2, ord2)
        (hds d (List.mem_cons_self _ _)) hres
      dsimp only at hev
      exact ih st2 ord2 (fun d' hd' => hds d' (List.mem_cons_of_mem _ hd'))
        (hev.1.bounded hb)
        (Nat.lt_of_le_of_lt (avail_mono hev.1.noUnmark) hav)

theorem visit_isSome (ps : List PluginLoader) (pm : List (String × String)) :
    ∀ fuel id st order, id ∈ pluginIds ps → (∀ x, st x ≤ 2) →
      avail ps st < fuel → (visit ps pm fuel id st order).isSome := by
  intro fuel
  induction fuel with
  | zero =>
    intro id st order _ _ hav
    exact absurd hav (Nat.not_lt_zero _)
  | succ fuel ih =>
    intro id st order hid hb hav
    rw [visit]
    by_cases h2 : st id = 2
    · rw [if_pos h2]
      rfl
    · rw [if_neg h2]
      by_cases h1 : st id = 1
      · rw [if_pos h1]
        rfl
      · rw [if_neg h1]
        have h0 : st id = 0 := by
          have := hb id
          omega
        have hb1 : ∀ x, stSet st id 1 x ≤ 2 := by
          intro x
          by_cases hxi : x = id
          · subst hxi
            rw [stSet_self]
            omega
          · rw [stSet_ne hxi]
            exact hb x
        have hav1 : avail ps (stSet st id 1) < fuel := by
          have hlt := avail_set1_lt hid h0
          omega
        obtain ⟨res, hres⟩ := Option.isSome_iff_exists.mp
          (runDeps_isSome ps pm fuel ih (visitDeps ps pm id)
            (stSet st id 1) order (visitDeps_subset ps pm id) hb1 hav1)
        rw [hres]
        obtain ⟨b2, st2, ord2⟩ := res
        cases b2 with
        | false => rfl
        | true => rfl

theorem sweepIds_isSome (ps : List PluginLoader) (pm : List (String × String)) :
    ∀ ids st order diags, (∀ i ∈ ids, i ∈ pluginIds ps) → (∀ x, st x ≤ 2) →
      (sweepIds ps pm ids st order diags).isSome := by
  intro ids
  induction ids with
  | nil =>
    intro st order diags _ _
    rw [sweepIds]
    rfl
  | cons id ids ih =>
    intro st order diags hids hb
    rw [sweepIds]
    have hav : avail ps st < ps.length + 1 :=
      Nat.lt_succ_of_le (avail_le ps st)
    obtain ⟨res, hres⟩ := Option.isSome_iff_exists.mp
      (visit_isSome ps pm (ps.length + 1) id st order
        (hids id (List.mem_cons_self _ _)) hb hav)
    rw [hres]
    obtain ⟨b, st2, ord2⟩ := res
    have hev := visit_evolves ps pm (ps.length + 1) id st order (b, st2, ord2)
      (hids id (List.mem_cons_self _ _)) hres
    dsimp only at hev
    exact ih st2 ord2 _ (fun i hi => hids i (List.mem_cons_of_mem _ hi))
      (hev.1.bounded hb)

theorem computeLoadOrderFull_eq (ps : List PluginLoader) :
    sweepIds ps (providerMap ps) (pluginIds ps) (fun _ => 0) [] [] =
      some (computeLoadOrderFull ps) := by
  obtain ⟨r, hr⟩ := Option.isSome_iff_exists.mp
    (sweepIds_isSome ps (providerMap ps) (pluginIds ps) (fun _ => 0) [] []
      (fun i hi => hi) (fun _ => Nat.zero_le 2))
  rw [computeLoadOrderFull, hr]

theorem sweep_post (ps : List PluginLoader) (pm : List (String × String)) :
    ∀ ids st order diags res,
      sweepIds ps pm ids st order diags = some res →
      (∀ i ∈ ids, i ∈ pluginIds ps) →
      EvolvesTo ps pm st order res.1 res.2.1 ∧
      (∀ i ∈ ids, res.1 i ≠ 0) := by
  intro ids
  induction ids with
  | nil =>
    intro st order diags res hsw _
    rw [sweepIds] at hsw
    obtain rfl : ((st, order, diags) :
        (String → Nat) × List String × List String) = res :=
      Option.some_injective _ hsw
    exact ⟨EvolvesTo.rfl st order, fun i hi => absurd hi (List.not_mem_nil i)⟩
  | cons id ids ih =>
    intro st order diags res hsw hids
    rw [sweepIds] at hsw
    cases hv : visit ps pm (ps.length + 1) id st order with
    | none => rw [hv] at hsw; exact Option.noConfusion hsw
    | some res1 =>
      rw [hv] at hsw
      obtain ⟨b, st2, ord2⟩ := res1
      have hev := visit_evolves ps pm (ps.length + 1) id st order
        (b, st2, ord2) (hids id (List.mem_cons_self _ _)) hv
      dsimp only at hev
      have hrec := ih st2 ord2 _ res hsw
        (fun i hi => hids i (List.mem_cons_of_mem _ hi))
      refine ⟨hev.1.trans hrec.1, ?_⟩
      intro i hi
      rcases List.mem_cons.mp hi with rfl | hi
      · intro hz
        exact hev.2.1 (hrec.1.noUnmark i hz)
      · exact hrec.2 i hi

/-- Core semantics of `computeLoadOrder`: the output is duplicate-free,
contains only discovered ids, lists the dependency targets of every
emitted id before that id, and contains a discovered id exactly when the
sweep finished it (final colour 2); every discovered id ends in colour 1
or 2. -/
theorem computeLoadOrder_semantics_core (ps : List PluginLoader) :
    (computeLoadOrder ps).Nodup ∧
    (∀ x ∈ computeLoadOrder ps, x ∈ pluginIds ps) ∧
    (∀ id ∈ pluginIds ps,
      (id ∈ computeLoadOrder ps ↔ (computeLoadOrderFull ps).1 id = 2) ∧
      ((computeLoadOrderFull ps).1 id = 1 ∨
        (computeLoadOrderFull ps).1 id = 2)) ∧
    (∀ l₁ x l₂, computeLoadOrder ps = l₁ ++ x :: l₂ →
      ∀ d ∈ visitDeps ps (providerMap ps) x, d ∈ l₁) := by
  have hsw := computeLoadOrderFull_eq ps
  have hpost := sweep_post ps (providerMap ps) (pluginIds ps) (fun _ => 0)
    [] [] (computeLoadOrderFull ps) hsw (fun i hi => hi)
  have hinv : InvSO ps (providerMap ps) (computeLoadOrderFull ps).1
      (computeLoadOrderFull ps).2.1 :=
    hpost.1.inv (InvSO.initial ps (providerMap ps))
  have hord : computeLoadOrder ps = (computeLoadOrderFull ps).2.1 := rfl
  refine ⟨?_, ?_, ?_, ?_⟩
  · rw [hord]
    exact hinv.nodup
  · intro x hx
    rw [hord] at hx
    have h2 : (computeLoadOrderFull ps).1 x = 2 := (hinv.mem2 x).mpr hx
    rcases hpost.1.markedIds x (by omega) with h' | h'
    · exact absurd rfl h'
    · exact h'
  · intro id hid
    constructor
    · rw [hord]
      exact (hinv.mem2 id).symm
    · have hne := hpost.2 id hid
      have hle := hpost.1.bounded (fun _ => Nat.zero_le 2) id
      omega
  · intro l₁ x l₂ hdec
    rw [hord] at hdec
    exact hinv.closed l₁ x l₂ hdec

/-- C1 amended: `computeLoadOrder` never aborts on a cycle — it reports
diagnostics and keeps sweeping — and its output is duplicate-free,
contains only discovered ids, lists the dependency targets of every
emitted id before that id, and contains a discovered id exactly when the
sweep finished it (final colour 2); an id left in the `visiting` colour 1
by a detected cycle is excluded from the returned order.  The result is a
function of the discovered set, hence stable across repeated calls. -/
theorem computeLoadOrder_cycle_semantics (ps : List PluginLoader) :
    (computeLoadOrder ps).Nodup ∧
    (∀ x ∈ computeLoadOrder ps, x ∈ pluginIds ps) ∧
    (∀ id ∈ pluginIds ps,
      (id ∈ computeLoadOrder ps ↔ (computeLoadOrderFull ps).1 id = 2) ∧
      ((computeLoadOrderFull ps).1 id = 1 ∨
        (computeLoadOrderFull ps).1 id = 2)) ∧
    (∀ l₁ x l₂, computeLoadOrder ps = l₁ ++ x :: l₂ →
      ∀ d ∈ visitDeps ps (providerMap ps) x, d ∈ l₁) :=
  computeLoadOrder_semantics_core ps

/-- A plugin `A` that requires plugin `B`, ... -/
def cycA : PluginLoader :=
  ⟨⟨"A", ⟨1, 0, 0⟩, [], [⟨DepType.plugin, "B", ⟨1, 0, 0⟩, false⟩]⟩, true, ""⟩

/-- ... a plugin `B` that requires plugin `A` (a dependency cycle), ... -/
def cycB : PluginLoader :=
  ⟨⟨"B", ⟨1, 0, 0⟩, [], [⟨DepType.plugin, "A", ⟨1, 0, 0⟩, false⟩]⟩, true, ""⟩

/-- ... and an independent plugin `C`. -/
def indC : PluginLoader :=
  ⟨⟨"C", ⟨1, 0, 0⟩, [], []⟩, true, ""⟩

/-- C1 counterexample: with the cycle `A ↔ B` plus an unrelated `C`, the
resolver returns only `["C"]` — the discovered ids `A` and `B` are left in
the `visiting` state and are excluded from the returned order (the cycle
is still only a diagnostic naming the sweep roots, and the sweep
continues to `C`). -/
theorem computeLoadOrder_drops_cycle_nodes :
    pluginIds [cycA, cycB, indC] = ["A", "B", "C"] ∧
    computeLoadOrder [cycA, cycB, indC] = ["C"] ∧
    "A" ∉ computeLoadOrder [cycA, cycB, indC] ∧
    "B" ∉ computeLoadOrder [cycA, cycB, indC] ∧
    cycleDiagnostics [cycA, cycB, indC] = ["A", "B"] := by
  refine ⟨rfl, rfl, ?_, ?_, rfl⟩ <;> decide

/-- Witness for `computeLoadOrder_cycle_semantics` at the cyclic input:
the discovered id `A` is in the order exactly when its final colour is 2,
and its final colour is 1 or 2. -/
theorem computeLoadOrder_cycle_semantics_witness :
    ("A" ∈ computeLoadOrder [cycA, cycB, indC] ↔
      (computeLoadOrderFull [cycA, cycB, indC]).1 "A" = 2) ∧
    ((computeLoadOrderFull [cycA, cycB, indC]).1 "A" = 1 ∨
      (computeLoadOrderFull [cycA, cycB, indC]).1 "A" = 2) :=
  (computeLoadOrder_cycle_semantics [cycA, cycB, indC]).2.2.1 "A" (by decide)

/-! ### Acyclic inputs: every visit succeeds

Acyclicity is expressed by a rank function that strictly decreases along
dependency edges; on such inputs every `topologicalSort` call returns
`true` and every discovered id is emitted. -/

theorem runDeps_rank {r : String → Nat} {m : Nat}
    (step : String → (String → Nat) → List String →
      Option (Bool × (String → Nat) × List String))
    (hstep : ∀ d st1 ord1 res1, step d st1 ord1 = some res1 →
      (∀ y, st1 y = 1 → r d < r y) →
      res1.1 = true ∧ (∀ y, res1.2.1 y = 1 ↔ st1 y = 1)) :
    ∀ ds st order res, (∀ d ∈ ds, r d < m) → (∀ y, st y = 1 → m ≤ r y) →
      runDeps step ds st order = some res →
      res.1 = true ∧ (∀ y, res.2.1 y = 1 ↔ st y = 1) := by
  intro ds
  induction ds with
  | nil =>
    intro st order res _ _ hrun
    rw [runDeps] at hrun
    obtain rfl : ((true, st, order) : Bool × (String → Nat) × List String)
        = res := Option.some_injective _ hrun
    exact ⟨rfl, fun y => Iff.rfl⟩
  | cons d ds ih =>
    intro st order res hds hst hrun
    rw [runDeps] at hrun
    cases hstp : step d st order with
    | none => rw [hstp] at hrun; exact Option.noConfusion hrun
    | some res1 =>
      rw [hstp] at hrun
      obtain ⟨b1, st2, ord2⟩ := res1
      have h1 := hstep d st order (b1, st2, ord2) hstp
        (fun y hy => Nat.lt_of_lt_of_le (hds d (List.mem_cons_self _ _))
          (hst y hy))
      dsimp only at h1
      cases b1 with
      | false => exact absurd h1.1 (by simp)
      | true =>
        have h2 := ih st2 ord2 res
          (fun d' hd' => hds d' (List.mem_cons_of_mem _ hd'))
          (fun y hy => hst y ((h1.2 y).mp hy)) hrun
        refine ⟨h2.1, ?_⟩
        intro y
        rw [h2.2 y, h1.2 y]

theorem visit_rank (ps : List PluginLoader) (pm : List (String × String))
    (r : String → Nat)
    (hr : ∀ x d, d ∈ visitDeps ps pm x → r d < r x) :
    ∀ fuel id st order res, visit ps pm fuel id st order = some res →
      (∀ y, st y = 1 → r id < r y) →
      res.1 = true ∧ (∀ y, res.2.1 y = 1 ↔ st y = 1) := by
  intro fuel
  induction fuel with
  | zero =>
    intro id st order res h _
    exact Option.noConfusion h
  | succ fuel ih =>
    intro id st order res h hvis
    rw [visit] at h
    by_cases h2 : st id = 2
    · rw [if_pos h2] at h
      obtain rfl : ((true, st, order) : Bool × (String → Nat) × List String)
          = res := Option.some_injective _ h
      exact ⟨rfl, fun y => Iff.rfl⟩
    · rw [if_neg h2] at h
      by_cases h1 : st id = 1
      · exact absurd (hvis id h1) (lt_irrefl _)
      · rw [if_neg h1] at h
        cases hrd : runDeps (fun d st2 ord2 => visit ps pm fuel d st2 ord2)
            (visitDeps ps pm id) (stSet st id 1) order with
        | none => rw [hrd] at h; exact Option.noConfusion h
        | some res2 =>
          rw [hrd] at h
          obtain ⟨b2, st2, ord2⟩ := res2
          have hrank := runDeps_rank (m := r id) _
            (fun d sd od rd hv hvis' => ih d sd od rd hv hvis')
            (visitDeps ps pm id) (stSet st id 1) order (b2, st2, ord2)
            (fun d hd => hr id d hd) ?_ hrd
          · dsimp only at hrank
            cases b2 with
            | false => exact absurd hrank.1 (by simp)
            | true =>
              obtain rfl : ((true, stSet st2 id 2, ord2 ++ [id]) :
                  Bool × (String → Nat) × List String) = res :=
                Option.some_injective _ h
              refine ⟨rfl, ?_⟩
              intro y
              dsimp only
              by_cases hyi : y = id
              · subst hyi
                rw [stSet_self]
                constructor
                · intro hq
                  exact absurd hq (by omega)
                · intro hq
                  exact absurd hq h1
              · rw [stSet_ne hyi, hrank.2 y, stSet_ne hyi]
          · intro y hy
            by_cases hyi : y = id
            · subst hyi
              exact Nat.le_refl _
            · rw [stSet_ne hyi] at hy
              exact Nat.le_of_lt (hvis y hy)

theorem sweep_rank (ps : List PluginLoader) (pm : List (String × String))
    (r : String → Nat)
    (hr : ∀ x d, d ∈ visitDeps ps pm x → r d < r x) :
    ∀ ids st order diags res,
      sweepIds ps pm ids st order diags = some res →
      (∀ y, st y ≠ 1) →
      (∀ i ∈ ids, i ∈ pluginIds ps) →
      ∀ i ∈ ids, res.1 i = 2 := by
  intro ids
  induction ids with
  | nil =>
    intro st order diags res _ _ _ i hi
    exact absurd hi (List.not_mem_nil i)
  | cons id ids ih =>
    intro st order diags res hsw hno1 hids i hi
    rw [sweepIds] at hsw
    cases hv : visit ps pm (ps.length + 1) id st order with
    | none => rw [hv] at hsw; exact Option.noConfusion hsw
    | some res1 =>
      rw [hv] at hsw
      obtain ⟨b, st2, ord2⟩ := res1
      have hrk := visit_rank ps pm r hr (ps.length + 1) id st order
        (b, st2, ord2) hv (fun y hy => absurd hy (hno1 y))
      dsimp only at hrk
      have hno1' : ∀ y, st2 y ≠ 1 := by
        intro y hy
        exact hno1 y ((hrk.2 y).mp hy)
      have hev := visit_evolves ps pm (ps.length + 1) id st order
        (b, st2, ord2) (hids id (List.mem_cons_self _ _)) hv
      dsimp only at hev
      have hpost := sweep_post ps pm ids st2 ord2 _ res hsw
        (fun i' hi' => hids i' (List.mem_cons_of_mem _ hi'))
      rcases List.mem_cons.mp hi with rfl | hi
      · have hst2 : st2 i = 2 := by
          have hb := hrk.1
          subst hb
          exact hev.2.2 rfl
        exact hpost.1.keep2 i hst2
      · exact ih st2 ord2 _ res hsw hno1'
          (fun i' hi' => hids i' (List.mem_cons_of_mem _ hi')) i hi

/-- C4: if the dependency graph is acyclic (witnessed by a rank that
strictly decreases along the resolved dependency edges), a plugin `A` that
provides a service `S` mandatorily required by a plugin `B` (resolved
through the provider map to `A`) — or that `B` names directly as a
`Plugin`-kind dependency — appears before `B` in the order returned by the
resolver. -/
theorem provider_precedes_consumer (ps : List PluginLoader)
    (r : String → Nat)
    (hrank : ∀ x d, d ∈ visitDeps ps (providerMap ps) x → r d < r x)
    (A B : PluginLoader) (dep : PluginDependency) (S : String)
    (hA : findPlugin ps A.metadata.id = some A)
    (hB : findPlugin ps B.metadata.id = some B)
    (hAid : A.metadata.id ≠ "")
    (hdep : dep ∈ B.metadata.requires)
    (_hmand : dep.optional = false)
    (hkind : (dep.type = DepType.service ∧ dep.id = S ∧
        S ∈ A.metadata.provides ∧
        resolveServiceProvider (providerMap ps) S = A.metadata.id) ∨
      (dep.type = DepType.plugin ∧ dep.id = A.metadata.id)) :
    ∃ i j, i < j ∧
      (computeLoadOrder ps).get? i = some A.metadata.id ∧
      (computeLoadOrder ps).get? j = some B.metadata.id := by
  have htarget : depTarget (providerMap ps) dep = A.metadata.id := by
    rcases hkind with ⟨ht, hS, -, hres⟩ | ⟨ht, hid⟩
    · rw [depTarget, ht, hS, hres]
    · rw [depTarget, ht, hid]
  have hedge : A.metadata.id ∈ visitDeps ps (providerMap ps) B.metadata.id := by
    rw [visitDeps, hB]
    refine List.mem_filterMap.mpr ⟨dep, hdep, ?_⟩
    rw [if_pos ⟨by rw [htarget]; exact hAid,
      by rw [htarget, hA]; rfl⟩, htarget]
  have hBmem : B.metadata.id ∈ pluginIds ps :=
    (findPlugin_isSome_iff ps B.metadata.id).mp (by rw [hB]; rfl)
  have hBord : B.metadata.id ∈ computeLoadOrder ps := by
    have hsw := computeLoadOrderFull_eq ps
    have h2 := sweep_rank ps (providerMap ps) r hrank (pluginIds ps)
      (fun _ => 0) [] [] (computeLoadOrderFull ps) hsw
      (fun y => Nat.zero_ne_one) (fun i hi => hi) B.metadata.id hBmem
    exact ((computeLoadOrder_semantics_core ps).2.2.1 B.metadata.id
      hBmem).1.mpr h2
  obtain ⟨l₁, l₂, hdec⟩ := List.append_of_mem hBord
  have hcl := (computeLoadOrder_semantics_core ps).2.2.2 l₁ B.metadata.id l₂
    hdec A.metadata.id hedge
  obtain ⟨i, hi⟩ := List.mem_iff_get?.mp hcl
  have hilt : i < l₁.length := by
    rcases List.get?_eq_some.mp hi with ⟨hlt, -⟩
    exact hlt
  refine ⟨i, l₁.length, hilt, ?_, ?_⟩
  · rw [hdec, List.get?_append hilt]
    exact hi
  · rw [hdec, List.get?_append_right (Nat.le_refl _), Nat.sub_self]
    rfl

/-- A plugin providing service `S`... -/
def provP : PluginLoader := ⟨⟨"P", ⟨1, 0, 0⟩, ["S"], []⟩, true, ""⟩

/-- ...and a plugin with a mandatory `Service`-kind dependency on `S`. -/
def consQ : PluginLoader :=
  ⟨⟨"Q", ⟨1, 0, 0⟩, [], [⟨DepType.service, "S", ⟨1, 0, 0⟩, false⟩]⟩, true, ""⟩

/-- Witness for `provider_precedes_consumer`: with consumer `Q` discovered
before provider `P`, the resolver still orders `P` before `Q`. -/
theorem provider_precedes_consumer_witness :
    ∃ i j, i < j ∧
      (computeLoadOrder [consQ, provP]).get? i = some "P" ∧
      (computeLoadOrder [consQ, provP]).get? j = some "Q" := by
  have hrank : ∀ x d,
      d ∈ visitDeps [consQ, provP] (providerMap [consQ, provP]) x →
      (fun s => if s = "Q" then 1 else 0) d <
        (fun s => if s = "Q" then 1 else 0) x := by
    intro x d hd
    rw [visitDeps] at hd
    cases hfp : findPlugin [consQ, provP] x with
    | none => rw [hfp] at hd; exact absurd hd (List.not_mem_nil d)
    | some ld =>
      rw [hfp] at hd
      have hx : x ∈ pluginIds [consQ, provP] :=
        (findPlugin_isSome_iff _ _).mp (by rw [hfp]; rfl)
      rw [show pluginIds [consQ, provP] = ["Q", "P"] from rfl] at hx
      rcases List.mem_cons.mp hx with rfl | hx
      · rw [show findPlugin [consQ, provP] "Q" = some consQ from rfl] at hfp
        obtain rfl : consQ = ld := Option.some_injective _ hfp
        have hd2 : d ∈ ["P"] := hd
        rw [List.mem_singleton] at hd2
        subst hd2
        decide
      · rw [List.mem_singleton] at hx
        subst hx
        rw [show findPlugin [consQ, provP] "P" = some provP from rfl] at hfp
        obtain rfl : provP = ld := Option.some_injective _ hfp
        have hd2 : d ∈ ([] : List String) := hd
        exact absurd hd2 (List.not_mem_nil d)
  exact provider_precedes_consumer [consQ, provP]
    (fun s => if s = "Q" then 1 else 0) hrank provP consQ
    ⟨DepType.service, "S", ⟨1, 0, 0⟩, false⟩ "S" rfl rfl (by decide)
    (by decide) rfl (Or.inl ⟨rfl, rfl, by decide, rfl⟩)

/-! ## `checkDependencies` and `loadAll` -/

/-- The per-dependency descriptor the specification assigns to
`checkDependencies` output: one entry per unresolved mandatory dependency
and nothing else. -/
def depDescriptor (ps : List PluginLoader) (pm : List (String × String))
    (dep : PluginDependency) : Option String :=
  if dep.optional then none
  else
    match dep.type with
    | DepType.plugin =>
        match findPlugin ps dep.id with
        | none => some ("plugin:" ++ dep.id)
        | some depPlugin =>
            if versionLt depPlugin.metadata.version dep.minVersion
            then some ("plugin:" ++ dep.id ++ ">=" ++
              versionToString dep.minVersion)
            else none
    | DepType.service =>
        if resolveServiceProvider pm dep.id = ""
        then some ("service:" ++ dep.id) else none

theorem checkDependenciesAux_eq_filterMap (ps : List PluginLoader)
    (pm : List (String × String)) :
    ∀ deps : List PluginDependency,
      checkDependenciesAux ps pm deps = deps.filterMap (depDescriptor ps pm) := by
  intro deps
  induction deps with
  | nil => rfl
  | cons dep rest ih =>
    rw [checkDependenciesAux, List.filterMap_cons]
    by_cases hopt : dep.optional
    · simp [depDescriptor, hopt, ih]
    · cases htype : dep.type with
      | plugin =>
        cases hfp : findPlugin ps dep.id with
        | none => simp [depDescriptor, hopt, htype, hfp, ih]
        | some depPlugin =>
          by_cases hv : versionLt depPlugin.metadata.version dep.minVersion
          · simp [depDescriptor, hopt, htype, hfp, hv, ih]
          · simp [depDescriptor, hopt, htype, hfp, hv, ih]
      | service =>
        by_cases hres : resolveServiceProvider pm dep.id = ""
        · simp [depDescriptor, hopt, htype, hres, ih]
        · simp [depDescriptor, hopt, htype, hres, ih]

/-- C8: `checkDependencies` emits exactly one descriptor per unresolved
mandatory dependency — `plugin:<id>` for a missing plugin,
`plugin:<id>>=<minVersion>` for a version mismatch, `service:<id>` for an
unprovided service — and nothing else (optional dependencies never
contribute); a record whose only requirement is a mandatory dependency on
an unprovided service `S` yields exactly `["service:" ++ S]`. -/
theorem checkDependencies_descriptors (ps : List PluginLoader)
    (md : PluginMetadata) (S : String) (v : Version) :
    checkDependencies ps md =
      md.requires.filterMap (depDescriptor ps (providerMap ps)) ∧
    (∀ dep ∈ md.requires, dep.optional = true →
      depDescriptor ps (providerMap ps) dep = none) ∧
    (md.requires = [⟨DepType.service, S, v, false⟩] →
      resolveServiceProvider (providerMap ps) S = "" →
      checkDependencies ps md = ["service:" ++ S]) := by
  refine ⟨checkDependenciesAux_eq_filterMap ps (providerMap ps) md.requires,
    ?_, ?_⟩
  · intro dep _ hopt
    rw [depDescriptor, if_pos hopt]
  · intro hreq hres
    rw [checkDependencies, hreq]
    simp [checkDependenciesAux, hres]

/-- A metadata record whose only requirement is a mandatory dependency on
service `S` (which nothing provides). -/
def mdNeedsS : PluginMetadata :=
  ⟨"B", ⟨1, 0, 0⟩, [], [⟨DepType.service, "S", ⟨1, 0, 0⟩, false⟩]⟩

/-- Witness for `checkDependencies_descriptors`: the concrete
`["service:S"]` case on an empty manager. -/
theorem checkDependencies_descriptors_witness :
    checkDependencies [] mdNeedsS = ["service:S"] :=
  (checkDependencies_descriptors [] mdNeedsS "S" ⟨1, 0, 0⟩).2.2 rfl rfl

/-- `PluginManager::loadAll` (lines 93-121) over an id list: skip ids not
in the map; or record an unsatisfied-dependency error and continue; or
record a `Loadable::load()` failure (its `errorString`) and continue; or
load.  Returns the aggregate flag, the recorded errors and the loaded
ids. -/
def loadAllGo (ps : List PluginLoader) :
    List String → Bool × List (String × String) × List String
  | [] => (true, [], [])
  | id :: rest =>
      match findPlugin ps id with
      | none => loadAllGo ps rest
      | some loader =>
          if checkDependencies ps loader.metadata ≠ [] then
            (false,
              (id, "Unsatisfied dependencies: " ++ String.intercalate ", "
                (checkDependencies ps loader.metadata)) ::
                (loadAllGo ps rest).2.1,
              (loadAllGo ps rest).2.2)
          else if loader.loadOk = false then
            (false, (id, loader.errMsg) :: (loadAllGo ps rest).2.1,
              (loadAllGo ps rest).2.2)
          else
            ((loadAllGo ps rest).1, (loadAllGo ps rest).2.1,
              id :: (loadAllGo ps rest).2.2)

/-- `PluginManager::loadAll`: the sweep over `computeLoadOrder`. -/
def loadAll (ps : List PluginLoader) :
    Bool × List (String × String) × List String :=
  loadAllGo ps (computeLoadOrder ps)

/-- The per-id outcome of the `loadAll` sweep: `none` when undiscovered,
otherwise the recorded error, if any. -/
def loadError (ps : List PluginLoader) (id : String) :
    Option (String × String) :=
  match findPlugin ps id with
  | none => none
  | some loader =>
      if checkDependencies ps loader.metadata ≠ [] then
        some (id, "Unsatisfied dependencies: " ++ String.intercalate ", "
          (checkDependencies ps loader.metadata))
      else if loader.loadOk = false then some (id, loader.errMsg)
      else none

/-- Whether the `loadAll` sweep loads an id: it is discovered, its
mandatory dependencies are satisfied, and its `Loadable.load()` succeeds. -/
def loadKeep (ps : List PluginLoader) (id : String) : Bool :=
  match findPlugin ps id with
  | none => false
  | some ld => (checkDependencies ps ld.metadata).isEmpty && ld.loadOk

theorem loadKeep_of_none {ps : List PluginLoader} {id : String}
    (hfp : findPlugin ps id = none) : loadKeep ps id = false := by
  rw [loadKeep, hfp]

theorem loadKeep_of_some {ps : List PluginLoader} {id : String}
    {loader : PluginLoader} (hfp : findPlugin ps id = some loader) :
    loadKeep ps id =
      ((checkDependencies ps loader.metadata).isEmpty && loader.loadOk) := by
  rw [loadKeep, hfp]

theorem loadError_of_none {ps : List PluginLoader} {id : String}
    (hfp : findPlugin ps id = none) : loadError ps id = none := by
  rw [loadError, hfp]

theorem loadError_of_some {ps : List PluginLoader} {id : String}
    {loader : PluginLoader} (hfp : findPlugin ps id = some loader) :
    loadError ps id =
      (if checkDependencies ps loader.metadata ≠ [] then
        some (id, "Unsatisfied dependencies: " ++ String.intercalate ", "
          (checkDependencies ps loader.metadata))
      else if loader.loadOk = false then some (id, loader.errMsg)
      else none) := by
  rw [loadError, hfp]

theorem loadAllGo_cons_none {ps : List PluginLoader} {id : String}
    {rest : List String} (hfp : findPlugin ps id = none) :
    loadAllGo ps (id :: rest) = loadAllGo ps rest := by
  rw [loadAllGo, hfp]

theorem loadAllGo_cons_some {ps : List PluginLoader} {id : String}
    {rest : List String} {loader : PluginLoader}
    (hfp : findPlugin ps id = some loader) :
    loadAllGo ps (id :: rest) =
      (if checkDependencies ps loader.metadata ≠ [] then
        (false,
          (id, "Unsatisfied dependencies: " ++ String.intercalate ", "
            (checkDependencies ps loader.metadata)) ::
            (loadAllGo ps rest).2.1,
          (loadAllGo ps rest).2.2)
      else if loader.loadOk = false then
        (false, (id, loader.errMsg) :: (loadAllGo ps rest).2.1,
          (loadAllGo ps rest).2.2)
      else
        ((loadAllGo ps rest).1, (loadAllGo ps rest).2.1,
          id :: (loadAllGo ps rest).2.2)) := by
  rw [loadAllGo, hfp]

theorem loadAllGo_spec (ps : List PluginLoader) :
    ∀ ids : List String,
      ((loadAllGo ps ids).1 = true ↔
        ∀ id ∈ ids, ∀ ld, findPlugin ps id = some ld →
          checkDependencies ps ld.metadata = [] ∧ ld.loadOk = true) ∧
      (loadAllGo ps ids).2.1 = ids.filterMap (loadError ps) ∧
      (loadAllGo ps ids).2.2 = ids.filter (loadKeep ps) := by
  intro ids
  induction ids with
  | nil =>
    refine ⟨?_, rfl, rfl⟩
    simp [loadAllGo]
  | cons id rest ih =>
    rw [List.filterMap_cons, List.filter_cons]
    cases hfp : findPlugin ps id with
    | none =>
      rw [loadAllGo_cons_none hfp, loadError_of_none hfp,
        loadKeep_of_none hfp]
      refine ⟨?_, ih.2.1, ?_⟩
      · rw [ih.1]
        constructor
        · intro h id' hid' ld hld
          rcases List.mem_cons.mp hid' with rfl | hid'
          · rw [hfp] at hld
            exact Option.noConfusion hld
          · exact h id' hid' ld hld
        · intro h id' hid' ld hld
          exact h id' (List.mem_cons_of_mem _ hid') ld hld
      · rw [if_neg (by simp), ih.2.2]
    | some loader =>
      rw [loadAllGo_cons_some hfp, loadError_of_some hfp,
        loadKeep_of_some hfp]
      by_cases hdeps : checkDependencies ps loader.metadata ≠ []
      · rw [if_pos hdeps, if_pos hdeps]
        refine ⟨?_, ?_, ?_⟩
        · simp only [Bool.false_eq_true, false_iff]
          intro h
          obtain ⟨hd, -⟩ := h id (List.mem_cons_self _ _) loader hfp
          exact hdeps hd
        · rw [ih.2.1]
        · rw [if_neg (by
            simp only [Bool.and_eq_true, List.isEmpty_iff]
            rintro ⟨hd, -⟩
            exact hdeps hd), ih.2.2]
      · rw [if_neg hdeps, if_neg hdeps]
        rw [not_not] at hdeps
        by_cases hok : loader.loadOk = false
        · rw [if_pos hok, if_pos hok]
          refine ⟨?_, ?_, ?_⟩
          · simp only [Bool.false_eq_true, false_iff]
            intro h
            obtain ⟨-, hl⟩ := h id (List.mem_cons_self _ _) loader hfp
            rw [hok] at hl
            exact Bool.noConfusion hl
          · rw [ih.2.1]
          · rw [if_neg (by
              simp only [Bool.and_eq_true]
              rintro ⟨-, hl⟩
              rw [hok] at hl
              exact Bool.noConfusion hl), ih.2.2]
        · rw [if_neg hok, if_neg hok]
          rw [Bool.not_eq_false] at hok
          refine ⟨?_, ?_, ?_⟩
          · rw [ih.1]
            constructor
            · intro h id' hid' ld hld
              rcases List.mem_cons.mp hid' with rfl | hid'
              · rw [hfp] at hld
                obtain rfl : loader = ld := Option.some_injective _ hld
                exact ⟨hdeps, hok⟩
              · exact h id' hid' ld hld
            · intro h id' hid' ld hld
              exact h id' (List.mem_cons_of_mem _ hid') ld hld
          · rw [ih.2.1]
          · rw [if_pos (by
              simp only [Bool.and_eq_true, List.isEmpty_iff]
              exact ⟨hdeps, hok⟩), ih.2.2]

/-- C9: `loadAll` sweeps the resolver order; per id it records an
unsatisfied-dependency error, or a load failure, or loads the plugin —
each id's outcome independent of every other id's failures — and it
returns `true` exactly when every discovered plugin in the order passes
its dependency check and loads. -/
theorem loadAll_sweep (ps : List PluginLoader) :
    ((loadAll ps).1 = true ↔
      ∀ id ∈ computeLoadOrder ps, ∀ ld, findPlugin ps id = some ld →
        checkDependencies ps ld.metadata = [] ∧ ld.loadOk = true) ∧
    (loadAll ps).2.1 = (computeLoadOrder ps).filterMap (loadError ps) ∧
    (loadAll ps).2.2 = (computeLoadOrder ps).filter (loadKeep ps) :=
  loadAllGo_spec ps (computeLoadOrder ps)

/-- Witness for `loadAll_sweep`: a single dependency-free plugin whose
load succeeds makes `loadAll` return `true`. -/
theorem loadAll_sweep_witness : (loadAll [provP]).1 = true := by
  refine (loadAll_sweep [provP]).1.mpr ?_
  intro id hid ld hld
  rw [show computeLoadOrder [provP] = ["P"] from rfl,
    List.mem_singleton] at hid
  subst hid
  rw [show findPlugin [provP] "P" = some provP from rfl] at hld
  obtain rfl : provP = ld := Option.some_injective _ hld
  exact ⟨rfl, rfl⟩

end MpfHost
